import Mathlib

/-!
# Verification of the ghss action-audit engine

A shallow embedding, in Lean 4, of the core algorithms of the `ghss`
GitHub-Actions auditing tool, together with proofs (and refutations) of the
behavioural claims made by its specification.

Conventions of the embedding:
* Rust `String` becomes Lean `String`; where a proof needs to traverse the
  characters we work on `String.data` (`List Char`).  All strings handled by
  the audited code paths are ASCII, where Rust's byte length and the Lean
  character count agree.
* Rust `Result<T, E>` becomes `Except String T`; `Option<T>` becomes
  `Option T`; `usize` becomes `Nat` (with the `usize` string parser keeping
  Rust's 64-bit overflow bound explicit).
* `HashSet`/`BTreeSet`/`HashMap` state is represented by lists, observed only
  through membership / first-match lookup, which is all the source observes.
* Network and YAML-deserialisation effects are parameters ("oracles")
  supplied to the embedded functions, so that theorems quantify over every
  possible remote behaviour.
-/

set_option maxHeartbeats 1000000

namespace Ghss

/-! ## Basic string helpers mirroring the Rust std functions used by ghss -/

/-- `str::split_once(c)`: split at the first occurrence of `c`. -/
def splitOnceChar (c : Char) : List Char → Option (List Char × List Char)
  | [] => none
  | x :: xs =>
    if x = c then some ([], xs)
    else (splitOnceChar c xs).map (fun p => (x :: p.1, p.2))

/-- `str::split(c)`: split at every occurrence of `c` (empty pieces kept,
`"".split(c) = [""]`). -/
def splitChar (c : Char) : List Char → List (List Char)
  | [] => [[]]
  | x :: xs =>
    if x = c then [] :: splitChar c xs
    else
      match splitChar c xs with
      | [] => [[x]]
      | h :: t => (x :: h) :: t

/-- `str::trim`: drop whitespace from both ends. -/
def trimChars (l : List Char) : List Char :=
  ((l.dropWhile Char.isWhitespace).reverse.dropWhile Char.isWhitespace).reverse

/-- `u8::to_ascii_lowercase` on a character: shift the code point of an ASCII
uppercase letter (65–90) down into lowercase. -/
def asciiLowerChar (c : Char) : Char :=
  if 65 ≤ c.toNat ∧ c.toNat ≤ 90 then Char.ofNat (c.toNat + 32) else c

def eqIgnoreAsciiCase (a b : List Char) : Bool :=
  a.map asciiLowerChar = b.map asciiLowerChar

/-- `str::starts_with(pat)` on character lists. -/
def startsWithChars (pat l : List Char) : Bool :=
  pat.isPrefixOf l

/-- `str::contains(pat)`: some contiguous run of `l` equals `pat`. -/
def containsSub (pat : List Char) : List Char → Bool
  | [] => pat.isEmpty
  | c :: rest => startsWithChars pat (c :: rest) || containsSub pat rest

/-- `usize::from_str`: an optional `+` sign, then one or more ASCII digits,
rejecting values that overflow 64 bits. -/
def parseUsize (l : List Char) : Option Nat :=
  let digits := match l with
    | '+' :: rest => rest
    | _ => l
  if digits.isEmpty then none
  else if digits.all Char.isDigit then
    let n := digits.foldl (fun acc c => acc * 10 + (c.toNat - 48)) 0
    if n < 2 ^ 64 then some n else none
  else none

/-- `String::to_lowercase` (the audited strings are ASCII, where Rust's
Unicode lowering and ASCII lowering agree). -/
def toLowercase (s : String) : String :=
  String.mk (s.data.map asciiLowerChar)

/-- A string with no ASCII uppercase letter: the observable meaning of
"lowercase severity" used by the specification. -/
def isLowercaseStr (s : String) : Bool :=
  s.data.all (fun c => ¬ (65 ≤ c.toNat ∧ c.toNat ≤ 90))

/-! ## Action reference model — `src/src/lib/action_ref.rs` -/

inductive RefType where
  | Sha
  | Tag
  | Unknown
deriving DecidableEq, Repr

structure ActionRef where
  raw : String
  owner : String
  repo : String
  path : Option String
  git_ref : String
  ref_type : RefType
deriving DecidableEq, Repr

/-- `char::is_ascii_hexdigit`. -/
def isAsciiHexDigit (c : Char) : Bool :=
  c.isDigit || ('a' ≤ c ∧ c ≤ 'f') || ('A' ≤ c ∧ c ≤ 'F')

/-- `classify_ref` from `action_ref.rs`.  (For the 40-hex test, Rust checks
the byte length; all-ASCII-hex strings have byte length = character count, so
the two agree on every input.) -/
def classify_ref (git_ref : String) : RefType :=
  if git_ref.length = 40 ∧ git_ref.data.all isAsciiHexDigit then RefType.Sha
  else
    let without_v := if startsWithChars "v".data git_ref.data then git_ref.drop 1 else git_ref
    match without_v.data with
    | c :: _ => if c.isDigit then RefType.Tag else RefType.Unknown
    | [] => RefType.Unknown

/-- `ActionRef::from_str`. -/
def ActionRef.from_str (raw : String) : Except String ActionRef :=
  match splitOnceChar '@' raw.data with
  | none => Except.error ("missing '@' in action reference: " ++ raw)
  | some (namePart, gitRef) =>
    match splitChar '/' namePart with
    | s0 :: s1 :: rest =>
      let owner := String.mk s0
      let repo := String.mk s1
      -- Rust: `segments.len() > 2`, i.e. the tail after owner/repo is non-empty
      let path := if rest.length > 0 then
          some (String.intercalate "/" (rest.map String.mk))
        else none
      let gitRefStr := String.mk gitRef
      Except.ok
        { raw := raw
          owner := owner
          repo := repo
          path := path
          git_ref := gitRefStr
          ref_type := classify_ref gitRefStr }
    | _ => Except.error ("expected owner/repo in action reference: " ++ raw)

/-- `is_third_party` from `src/src/lib.rs`. -/
def is_third_party (uses : String) : Bool :=
  !(startsWithChars "./".data uses.data) && !(startsWithChars "docker://".data uses.data)

/-! ## Advisory model and deduplication — `src/src/lib/advisory.rs` -/

structure Advisory where
  id : String
  aliases : List String
  summary : String
  severity : String
  url : String
  affected_range : Option String
  source : String
deriving DecidableEq, Repr

/-- Membership test standing in for `HashSet::contains`. -/
def seenContains (seen : List String) (x : String) : Bool :=
  seen.any (fun y => y = x)

/-- The `retain` closure's drop test: the advisory's `id`, or any of its
aliases, has already been seen. -/
def blockedBy (seen : List String) (adv : Advisory) : Bool :=
  seenContains seen adv.id || adv.aliases.any (fun a => seenContains seen a)

/-- The `retain` loop of `deduplicate_advisories`: `seen` is the set of
identifiers seen so far; a kept advisory contributes its `id` and all of its
`aliases` to `seen`. -/
def dedupAux (seen : List String) : List Advisory → List Advisory
  | [] => []
  | adv :: rest =>
    if blockedBy seen adv then
      dedupAux seen rest
    else
      adv :: dedupAux (adv.id :: adv.aliases ++ seen) rest

/-- `deduplicate_advisories` from `advisory.rs`. -/
def deduplicate_advisories (advisories : List Advisory) : List Advisory :=
  dedupAux [] advisories

/-- The identifiers accumulated into `seen` after scanning a list
(order of accumulation is irrelevant: only membership is observed). -/
def seenAfter (seen : List String) : List Advisory → List String
  | [] => seen
  | adv :: rest =>
    if blockedBy seen adv then
      seenAfter seen rest
    else
      seenAfter (adv.id :: adv.aliases ++ seen) rest

/-! ## OSV response mapping — `src/src/lib/osv.rs` -/

structure OsvEvent where
  introduced : Option String
  fixed : Option String
  last_affected : Option String
deriving DecidableEq, Repr

structure OsvReference where
  ref_type : Option String
  url : Option String
deriving DecidableEq, Repr

structure OsvRange where
  events : List OsvEvent
deriving DecidableEq, Repr

structure OsvAffected where
  ranges : List OsvRange
deriving DecidableEq, Repr

structure OsvDatabaseSpecific where
  severity : Option String
deriving DecidableEq, Repr

structure OsvVuln where
  id : String
  aliases : List String
  summary : String
  references : List OsvReference
  affected : List OsvAffected
  database_specific : Option OsvDatabaseSpecific
deriving DecidableEq, Repr

/-- One iteration of the `for event in events` loop of
`format_range_events`: push up to three constraint fragments. -/
def rangeEventStep (parts : List String) (e : OsvEvent) : List String :=
  let parts := match e.introduced with
    | some introduced => if introduced ≠ "0" then parts ++ [">= " ++ introduced] else parts
    | none => parts
  let parts := match e.fixed with
    | some fixed => parts ++ ["< " ++ fixed]
    | none => parts
  match e.last_affected with
  | some last_affected => parts ++ ["<= " ++ last_affected]
  | none => parts

/-- `format_range_events` from `osv.rs`: the `parts` accumulation loop
followed by `join(", ")`. -/
def format_range_events (events : List OsvEvent) : String :=
  String.intercalate ", " (events.foldl rangeEventStep [])

/-- The per-vulnerability mapping inside `parse_osv_response`. -/
def osvAdvisoryOf (vuln : OsvVuln) : Advisory :=
  let severity := match vuln.database_specific with
    | some db => match db.severity with
      | some s => toLowercase s
      | none => "unknown"
    | none => "unknown"
  let url :=
    match (vuln.references.find? (fun r => r.ref_type = some "ADVISORY")).orElse
        (fun _ => vuln.references.find? (fun r => r.ref_type = some "WEB")) with
    | some r => r.url.getD ""
    | none => ""
  let affected_range := (vuln.affected.head?.bind (fun a => a.ranges.head?)).map
    (fun r => format_range_events r.events)
  { id := vuln.id
    aliases := vuln.aliases
    summary := vuln.summary
    severity := severity
    url := url
    affected_range := affected_range
    source := "OSV" }

/-- `parse_osv_response`, applied to an already-deserialised response body. -/
def parse_osv_response (vulns : List OsvVuln) : List Advisory :=
  vulns.map osvAdvisoryOf

/-! ## GHSA response mapping — `src/src/lib/ghsa.rs` -/

structure GhsaVulnerability where
  vulnerable_version_range : Option String
deriving DecidableEq, Repr

structure GhsaAdvisoryResponse where
  ghsa_id : Option String
  summary : Option String
  severity : Option String
  html_url : Option String
  vulnerabilities : List GhsaVulnerability
deriving DecidableEq, Repr

/-- The per-record mapping inside `parse_advisories` (ghsa.rs). -/
def ghsaAdvisoryOf (item : GhsaAdvisoryResponse) : Advisory :=
  let affected_range := item.vulnerabilities.findSome?
    (fun v => v.vulnerable_version_range)
  { id := item.ghsa_id.getD "unknown"
    aliases := []
    summary := item.summary.getD ""
    severity := item.severity.getD "unknown"
    url := item.html_url.getD ""
    affected_range := affected_range
    source := "GHSA" }

/-- `parse_advisories`, applied to an already-deserialised response body. -/
def parse_advisories (responses : List GhsaAdvisoryResponse) : List Advisory :=
  responses.map ghsaAdvisoryOf

/-! ## Scan selection — `ScanSelection` in `src/src/lib.rs` -/

inductive ScanSelection where
  | None
  | All
  | Indices (indices : List Nat)
deriving DecidableEq, Repr

/-- Membership test standing in for `Vec::contains` / `BTreeSet` lookup. -/
def seenContainsNat (l : List Nat) (x : Nat) : Bool :=
  l.any (fun y => y = x)

/-- `ScanSelection::should_scan` (0-indexed position). -/
def ScanSelection.should_scan : ScanSelection → Nat → Bool
  | ScanSelection.None, _ => false
  | ScanSelection.All, _ => true
  | ScanSelection.Indices indices, zero_index => seenContainsNat indices (zero_index + 1)

/-- `BTreeSet::insert`: insert keeping the list sorted and duplicate-free. -/
def insertSorted (n : Nat) : List Nat → List Nat
  | [] => [n]
  | x :: xs =>
    if n < x then n :: x :: xs
    else if n = x then x :: xs
    else x :: insertSorted n xs

/-- `for i in start..=end { indices.insert(i) }`. -/
def insertRange (start fin : Nat) (acc : List Nat) : List Nat :=
  (List.range' start (fin + 1 - start)).foldl (fun a i => insertSorted i a) acc

/-- One iteration of the `for part in s.split(',')` loop in
`ScanSelection::from_str`. -/
def processPart (acc : List Nat) (part : List Char) : Except String (List Nat) :=
  let part := trimChars part
  if part.isEmpty then Except.ok acc
  else
    match splitOnceChar '-' part with
    | some (startStr, endStr) =>
      match parseUsize (trimChars startStr) with
      | none => Except.error "invalid range start"
      | some start =>
        match parseUsize (trimChars endStr) with
        | none => Except.error "invalid range end"
        | some fin =>
          if start = 0 ∨ fin = 0 then Except.error "scan indices are 1-based; got 0"
          else if start > fin then Except.error "invalid range (start > end)"
          else Except.ok (insertRange start fin acc)
    | none =>
      match parseUsize part with
      | none => Except.error "invalid index"
      | some idx =>
        if idx = 0 then Except.error "scan indices are 1-based; got 0"
        else Except.ok (insertSorted idx acc)

/-- The whole `for` loop (early return on the first error). -/
def accumulateParts (acc : List Nat) : List (List Char) → Except String (List Nat)
  | [] => Except.ok acc
  | p :: rest =>
    match processPart acc p with
    | Except.error e => Except.error e
    | Except.ok acc2 => accumulateParts acc2 rest

/-- `ScanSelection::from_str`. -/
def ScanSelection.from_str (s : String) : Except String ScanSelection :=
  let t := trimChars s.data
  if eqIgnoreAsciiCase t "all".data then Except.ok ScanSelection.All
  else if eqIgnoreAsciiCase t "none".data then Except.ok ScanSelection.None
  else
    match accumulateParts [] (splitChar ',' t) with
    | Except.error e => Except.error e
    | Except.ok indices =>
      if indices.isEmpty then Except.ok ScanSelection.None
      else Except.ok (ScanSelection.Indices indices)

/-! ## Remaining data model — `scan.rs`, `dependency/mod.rs`, `context.rs` -/

inductive Ecosystem where
  | Npm | Cargo | Go | Pip | Maven | Gradle | RubyGems | Composer | Docker
deriving DecidableEq, Repr

structure ScanResult where
  primary_language : Option String
  ecosystems : List Ecosystem
deriving DecidableEq, Repr

structure DependencyReport where
  package : String
  version : String
  ecosystem : Ecosystem
  advisories : List Advisory
deriving DecidableEq, Repr

structure StageError where
  stage : String
  message : String
deriving DecidableEq, Repr

/-- The per-node working state, with the fields the Walker constructs
(`src/src/lib/walker.rs`): `parent` holds the parent's `raw` key and `index`
the position in the BFS frontier. -/
structure AuditContext where
  action : ActionRef
  depth : Nat
  parent : Option String
  children : List ActionRef
  index : Option Nat
  resolved_ref : Option String
  advisories : List Advisory
  scan : Option ScanResult
  dependencies : List DependencyReport
  errors : List StageError
deriving DecidableEq, Repr

/-- `AuditContext::record_error`. -/
def recordError (ctx : AuditContext) (stage message : String) : AuditContext :=
  { ctx with errors := ctx.errors ++ [{ stage := stage, message := message }] }

/-! ## Concrete stages — `resolve.rs`, `workflow_expand.rs`, `composite.rs`,
`advisory.rs` (stages).  Network and YAML deserialisation are oracles. -/

/-- `RefResolveStage::run`; `resolveF` stands for `client.resolve_ref`. -/
def refResolveRun (resolveF : ActionRef → Except String String)
    (ctx : AuditContext) : Except String AuditContext :=
  match resolveF ctx.action with
  | Except.ok sha => Except.ok { ctx with resolved_ref := some sha }
  | Except.error e => Except.ok (recordError ctx "RefResolve" e)

/-- `WorkflowExpandStage::run`; `fetchF` stands for `client.get_raw_content`
(argument: the file path), `parseF` for `parse_workflow_children` applied to
the fetched YAML text. -/
def workflowExpandRun (fetchF : String → Except String String)
    (parseF : String → Except String (List ActionRef))
    (ctx : AuditContext) : Except String AuditContext :=
  match ctx.action.path with
  | none => Except.ok ctx
  | some p =>
    if containsSub ".github/workflows/".data p.data then
      match fetchF p with
      | Except.error e =>
        if containsSub "not found".data e.data then Except.ok ctx
        else Except.ok (recordError ctx "WorkflowExpand" e)
      | Except.ok yaml_content =>
        match parseF yaml_content with
        | Except.ok children => Except.ok { ctx with children := ctx.children ++ children }
        | Except.error e => Except.ok (recordError ctx "WorkflowExpand" e)
    else Except.ok ctx

/-- Composite-action manifest YAML after deserialisation (`ActionYaml` and
friends in `composite.rs`). -/
structure ActionStep where
  uses : Option String
deriving DecidableEq, Repr

structure ActionRuns where
  -- `using` in the Rust source; `using` is a reserved word in Lean
  usingKind : String
  steps : Option (List ActionStep)
deriving DecidableEq, Repr

structure ActionYaml where
  runs : Option ActionRuns
deriving DecidableEq, Repr

/-- `parse_composite_action` (composite.rs), applied to an
already-deserialised manifest. -/
def parse_composite_action (action : ActionYaml) : Option (List ActionRef) :=
  match action.runs with
  | none => none
  | some runs =>
    if runs.usingKind ≠ "composite" then none
    else
      match runs.steps with
      | none => some []
      | some steps =>
        some (steps.foldl
          (fun children step =>
            match step.uses with
            | none => children
            | some uses =>
              if startsWithChars "./".data uses.data
                  || startsWithChars "docker://".data uses.data then children
              else
                match ActionRef.from_str uses with
                | Except.ok action_ref => children ++ [action_ref]
                | Except.error _ => children)
          [])

/-- The `action.yml` / `action.yaml` probe loop of `CompositeExpandStage::run`
(`client.get_raw_content_optional(owner, repo, git_ref, filename)` is the
oracle `fetchF`).  Returns the loop's outcome — carried through `?`, so an
oracle error is fatal — together with the list of file paths actually
requested. -/
def tryManifests (fetchF : String → String → String → String → Except String (Option String))
    (owner repo git_ref : String) :
    Except String (Option String) × List String :=
  match fetchF owner repo git_ref "action.yml" with
  | Except.error e => (Except.error e, ["action.yml"])
  | Except.ok (some c) => (Except.ok (some c), ["action.yml"])
  | Except.ok none =>
    match fetchF owner repo git_ref "action.yaml" with
    | Except.error e => (Except.error e, ["action.yml", "action.yaml"])
    | Except.ok r => (Except.ok r, ["action.yml", "action.yaml"])

/-- `CompositeExpandStage::run`.  `fetchF` is
`client.get_raw_content_optional`; `parseYamlF` is the `serde_yaml` step of
`parse_composite_action` on the fetched text.  The second component records
which file paths were fetched. -/
def compositeExpandRun
    (fetchF : String → String → String → String → Except String (Option String))
    (parseYamlF : String → Except String ActionYaml)
    (ctx : AuditContext) : Except String AuditContext × List String :=
  match tryManifests fetchF ctx.action.owner ctx.action.repo ctx.action.git_ref with
  | (Except.error e, reqs) => (Except.error e, reqs)
  | (Except.ok none, reqs) => (Except.ok ctx, reqs)
  | (Except.ok (some yaml_content), reqs) =>
    match parseYamlF yaml_content with
    | Except.error e => (Except.error e, reqs)
    | Except.ok action =>
      match parse_composite_action action with
      | none => (Except.ok ctx, reqs)
      | some children => (Except.ok { ctx with children := ctx.children ++ children }, reqs)

/-- `AdvisoryStage::run`: the provider fan-out is concurrent but `join_all`
returns results in provider order, so the post-step is a fold over the
ordered `(provider_name, result)` list. -/
def advisoryStageRun (results : List (String × Except String (List Advisory)))
    (ctx : AuditContext) : Except String AuditContext :=
  let collected := results.foldl
    (fun (acc : List Advisory × AuditContext) pr =>
      match pr.2 with
      | Except.ok advs => (acc.1 ++ advs, acc.2)
      | Except.error e => (acc.1, recordError acc.2 "Advisory" (pr.1 ++ ": " ++ e)))
    ([], ctx)
  Except.ok { collected.2 with advisories := deduplicate_advisories collected.1 }

/-! ## Pipeline — `Pipeline::run_one` in `src/ghss/src/pipeline.rs` -/

/-- An abstract stage: `run` may mutate the context arbitrarily and also
report success or an error message. -/
structure StageModel where
  name : String
  run : AuditContext → Except String Unit × AuditContext

/-- One iteration of the `for stage in self.stages` loop: run the stage; on
`Err(e)` record `{stage, message}` on the (already mutated) context. -/
def runStage (s : StageModel) (ctx : AuditContext) : AuditContext :=
  match s.run ctx with
  | (Except.ok _, ctx2) => ctx2
  | (Except.error e, ctx2) => recordError ctx2 s.name e

/-- `Pipeline::run_one`. -/
def runOne (stages : List StageModel) (ctx : AuditContext) : AuditContext :=
  stages.foldl (fun c s => runStage s c) ctx

/-! ## Output tree — `output.rs` -/

structure ActionEntry where
  action : ActionRef
  resolved_sha : Option String
  advisories : List Advisory
  scan : Option ScanResult
  dep_vulnerabilities : List DependencyReport
deriving DecidableEq, Repr

/-- `ActionEntry::from(AuditContext)`. -/
def actionEntryFrom (ctx : AuditContext) : ActionEntry :=
  { action := ctx.action
    resolved_sha := ctx.resolved_ref
    advisories := ctx.advisories
    scan := ctx.scan
    dep_vulnerabilities := ctx.dependencies }

inductive AuditNode where
  | mk (entry : ActionEntry) (children : List AuditNode)

def AuditNode.entry : AuditNode → ActionEntry
  | AuditNode.mk e _ => e

def AuditNode.children : AuditNode → List AuditNode
  | AuditNode.mk _ cs => cs

def AuditNode.entryRaw (n : AuditNode) : String :=
  n.entry.action.raw

/-- All entries of a forest together with their nesting depth (roots at
depth `d`). -/
def forestFlat (d : Nat) : List AuditNode → List (ActionEntry × Nat)
  | [] => []
  | AuditNode.mk e cs :: rest => (e, d) :: (forestFlat (d + 1) cs ++ forestFlat d rest)

/-- The `raw` strings of every node of a forest. -/
def forestRaws : List AuditNode → List String
  | [] => []
  | AuditNode.mk e cs :: rest => e.action.raw :: (forestRaws cs ++ forestRaws rest)

/-- All parent/child `raw` pairs of a forest. -/
def forestEdges : List AuditNode → List (String × String)
  | [] => []
  | AuditNode.mk e cs :: rest =>
    cs.map (fun c => (e.action.raw, c.entryRaw)) ++ (forestEdges cs ++ forestEdges rest)

/-! ## Walker — `src/src/lib/walker.rs`

The pipeline is abstracted by a function `pipelineF : AuditContext →
AuditContext` (stages mutate the context; the walker only observes the final
context).  The frontier drain / filter / process / collect structure of
`Walker::walk` is kept; the concurrent level processing is order-preserving
(`join_all` returns results in spawn order), so it is a `map` here.

`WalkState.pushLog` is a ghost field not present in the source: it records,
in order, every `(raw, parent)` pair ever pushed onto the frontier (seeded
roots first, then child enqueues in parent-processing order then listed child
order).  Nothing in the walker reads it; it exists so that "the first parent
that enqueued a node" is definable. -/

structure FrontierEntry where
  action : ActionRef
  depth : Nat
  parent : Option String
deriving DecidableEq, Repr

structure ProcessedNode where
  key : String
  context : AuditContext
deriving DecidableEq, Repr

structure WalkState where
  visited : List String
  frontier : List FrontierEntry
  allNodes : List (String × AuditContext)
  rootKeys : List String
  childrenOrder : List (String × List String)
  pushLog : List (String × Option String)
deriving DecidableEq, Repr

/-- The fresh `AuditContext` built for each admitted frontier entry. -/
def initCtx (action : ActionRef) (depth : Nat) (parent : Option String)
    (index : Nat) : AuditContext :=
  { action := action
    depth := depth
    parent := parent
    children := []
    index := some index
    resolved_ref := none
    advisories := []
    scan := none
    dependencies := []
    errors := [] }

/-- The "filter out already-visited actions, mark new ones as visited" loop. -/
def filterLevel (visited : List String) :
    List FrontierEntry → List String × List (FrontierEntry × String)
  | [] => (visited, [])
  | e :: rest =>
    let key := e.action.raw
    if seenContains visited key then filterLevel visited rest
    else
      let r := filterLevel (key :: visited) rest
      (r.1, (e, key) :: r.2)

/-- `children_order.entry(pk).or_default().push(key)`. -/
def pushChild (co : List (String × List String)) (pk key : String) :
    List (String × List String) :=
  if co.any (fun p => p.1 = pk) then
    co.map (fun p => if p.1 = pk then (p.1, p.2 ++ [key]) else p)
  else co ++ [(pk, [key])]

/-- `children_order.get(key).cloned().unwrap_or_default()`. -/
def lookupCO (co : List (String × List String)) (k : String) : List String :=
  match co.find? (fun p => p.1 = k) with
  | some p => p.2
  | none => []

/-- The "track which keys are roots vs children" loop over `to_process`. -/
def recordKeys (rootKeys : List String) (co : List (String × List String)) :
    List (FrontierEntry × String) → List String × List (String × List String)
  | [] => (rootKeys, co)
  | (e, key) :: rest =>
    let rootKeys2 := if e.depth = 0 then rootKeys ++ [key] else rootKeys
    let co2 := match e.parent with
      | some pk => pushChild co pk key
      | none => co
    recordKeys rootKeys2 co2 rest

/-- Concurrent level processing: each task builds a context (index = position
in the filtered level) and runs the pipeline; `join_all` keeps spawn order. -/
def processLevel (pipelineF : AuditContext → AuditContext)
    (toProcess : List (FrontierEntry × String)) : List ProcessedNode :=
  toProcess.enum.map
    (fun p => { key := p.2.2
                context := pipelineF (initCtx p.2.1.action p.2.1.depth p.2.1.parent p.1) })

/-- `depth < max` for `Some(max)`; always expand for `None`. -/
def shouldExpandAt (maxDepth : Option Nat) (depth : Nat) : Bool :=
  match maxDepth with
  | some m => depth < m
  | none => true

/-- The body of the "collect results" loop: store the processed node and
enqueue its children for the next frontier if depth allows. -/
def collectStep (maxDepth : Option Nat)
    (acc : List (String × AuditContext) × List FrontierEntry)
    (pn : ProcessedNode) : List (String × AuditContext) × List FrontierEntry :=
  let depth := pn.context.depth
  let nodes := acc.1 ++ [(pn.key, pn.context)]
  let fr :=
    if shouldExpandAt maxDepth depth then
      acc.2 ++ pn.context.children.map
        (fun c => { action := c, depth := depth + 1, parent := some pn.key : FrontierEntry })
    else acc.2
  (nodes, fr)

/-- The "collect results" loop of `Walker::walk`. -/
def collectResults (maxDepth : Option Nat) (allNodes : List (String × AuditContext))
    (results : List ProcessedNode) :
    List (String × AuditContext) × List FrontierEntry :=
  results.foldl (collectStep maxDepth) (allNodes, [])

def pairOf (e : FrontierEntry) : String × Option String :=
  (e.action.raw, e.parent)

/-- The frontier entries one processed node contributes to the next level. -/
def childEntriesOf (maxDepth : Option Nat) (pn : ProcessedNode) : List FrontierEntry :=
  if shouldExpandAt maxDepth pn.context.depth then
    pn.context.children.map
      (fun c => { action := c, depth := pn.context.depth + 1, parent := some pn.key })
  else []

/-- First-occurrence deduplication of a list of keys, given an initial seen
set — how the walker's visited filter treats a level. -/
def firstDedupAux (seen : List String) : List String → List String
  | [] => []
  | x :: xs =>
    if seenContains seen x then firstDedupAux seen xs
    else x :: firstDedupAux (x :: seen) xs

/-- The distinct elements of a list, first occurrences, in order. -/
def firstDedup (l : List String) : List String :=
  firstDedupAux [] l

/-- One iteration of the `while !frontier.is_empty()` loop: drain the whole
frontier as the current level, filter, record keys, process, collect. -/
def walkStep (pipelineF : AuditContext → AuditContext) (maxDepth : Option Nat)
    (st : WalkState) : WalkState :=
  let fl := filterLevel st.visited st.frontier
  if fl.2.isEmpty then
    { st with visited := fl.1, frontier := [] }
  else
    let rk := recordKeys st.rootKeys st.childrenOrder fl.2
    let results := processLevel pipelineF fl.2
    let cr := collectResults maxDepth st.allNodes results
    { visited := fl.1
      frontier := cr.2
      allNodes := cr.1
      rootKeys := rk.1
      childrenOrder := rk.2
      pushLog := st.pushLog ++ cr.2.map pairOf }

/-- The `while` loop, with explicit fuel (the source loop need not terminate
on an infinite action graph; every theorem below is about runs that do). -/
def walkLoop (pipelineF : AuditContext → AuditContext) (maxDepth : Option Nat) :
    Nat → WalkState → Option WalkState
  | 0, st => if st.frontier.isEmpty then some st else none
  | fuel + 1, st =>
    if st.frontier.isEmpty then some st
    else walkLoop pipelineF maxDepth fuel (walkStep pipelineF maxDepth st)

/-- The seeded initial state of `Walker::walk`. -/
def initState (roots : List ActionRef) : WalkState :=
  { visited := []
    frontier := roots.map (fun a => { action := a, depth := 0, parent := none })
    allNodes := []
    rootKeys := []
    childrenOrder := []
    pushLog := roots.map (fun a => (a.raw, none)) }

/-- The state after the walk loop finishes. -/
def walkFinal (pipelineF : AuditContext → AuditContext) (maxDepth : Option Nat)
    (roots : List ActionRef) (fuel : Nat) : Option WalkState :=
  walkLoop pipelineF maxDepth fuel (initState roots)

/-- `HashMap::remove`: take the entry with the given key out of the map. -/
def assocRemove? (key : String) :
    List (String × AuditContext) → Option (AuditContext × List (String × AuditContext))
  | [] => none
  | p :: rest =>
    if p.1 = key then some (p.2, rest)
    else (assocRemove? key rest).map (fun q => (q.1, p :: q.2))

theorem assocRemove_length {key : String} :
    ∀ {nodes : List (String × AuditContext)} {ctx rest},
      assocRemove? key nodes = some (ctx, rest) → rest.length < nodes.length := by
  intro nodes
  induction nodes with
  | nil => intro ctx rest h; simp [assocRemove?] at h
  | cons p tail ih =>
    intro ctx rest h
    by_cases hp : p.1 = key
    · simp [assocRemove?, hp] at h
      rw [← h.2]
      simp
    · simp [assocRemove?, hp] at h
      obtain ⟨q1, q2, hq, h1, h2⟩ := h
      have := ih hq
      rw [← h2]
      simp
      omega

/-- `build_tree` from `walker.rs`: recursively pop each key from the node
map, attach its recursively built children (per `children_order`), and return
both the forest and the remaining map.  The attached bound on the remaining
map's size is the termination measure of the nested recursion. -/
def buildTreeAux (nodes : List (String × AuditContext)) (keys : List String)
    (co : List (String × List String)) :
    { r : List AuditNode × List (String × AuditContext) // r.2.length ≤ nodes.length } :=
  match keys with
  | [] => ⟨([], nodes), Nat.le_refl _⟩
  | key :: restKeys =>
    match h : assocRemove? key nodes with
    | none =>
      let r := buildTreeAux nodes restKeys co
      ⟨r.val, r.property⟩
    | some (ctx, nodes1) =>
      have hlt : nodes1.length < nodes.length := assocRemove_length h
      let c := buildTreeAux nodes1 (lookupCO co key) co
      let r := buildTreeAux c.val.2 restKeys co
      ⟨(AuditNode.mk (actionEntryFrom ctx) c.val.1 :: r.val.1, r.val.2),
        le_trans r.property (le_trans c.property (Nat.le_of_lt hlt))⟩
termination_by (nodes.length, keys.length)
decreasing_by
  all_goals simp_wf
  all_goals
    first
      | exact Prod.Lex.right _ (by simp)
      | exact Prod.Lex.left _ _ hlt
      | exact Prod.Lex.left _ _ (lt_of_le_of_lt c.property hlt)

def build_tree (nodes : List (String × AuditContext)) (keys : List String)
    (co : List (String × List String)) : List AuditNode :=
  (buildTreeAux nodes keys co).val.1

/-- The output tree of a finished walk state. -/
def treeOf (st : WalkState) : List AuditNode :=
  build_tree st.allNodes st.rootKeys st.childrenOrder

/-- `Walker::walk` end to end. -/
def walk (pipelineF : AuditContext → AuditContext) (maxDepth : Option Nat)
    (roots : List ActionRef) (fuel : Nat) : Option (List AuditNode) :=
  (walkFinal pipelineF maxDepth roots fuel).map treeOf

/-- A pipeline behaviour that discovers children (and enriches freely) but
leaves the node's identity and BFS depth alone — true of every concrete
stage. -/
def ChildExpansionBehaviour (f : AuditContext → AuditContext) : Prop :=
  (∀ ctx, (f ctx).action = ctx.action) ∧ (∀ ctx, (f ctx).depth = ctx.depth)

/-- The walker's loop invariant.  `visited` dominates the processed map's
keys; processed keys are distinct; `childrenOrder` edges point from a
processed parent to the child whose globally first enqueue (per `pushLog`)
named that parent; root keys and `childrenOrder` edges carry the BFS depth
structure; frontier entries stay within the depth bound. -/
structure WalkInv (md : Option Nat) (f : AuditContext → AuditContext)
    (st : WalkState) : Prop where
  nodupKeys : (st.allNodes.map Prod.fst).Nodup
  keysVisited : ∀ k ∈ st.allNodes.map Prod.fst, k ∈ st.visited
  rawEq : ∀ p ∈ st.allNodes, p.2.action.raw = p.1
  depthBound : ∀ m, md = some m →
      (∀ e ∈ st.frontier, e.depth ≤ m) ∧ (∀ p ∈ st.allNodes, p.2.depth ≤ m)
  pushSplit : ∃ done, st.pushLog = done ++ st.frontier.map pairOf
      ∧ ∀ q ∈ done, q.1 ∈ st.visited
  coEdge : ∀ pk c, c ∈ lookupCO st.childrenOrder pk →
      List.find? (fun q => q.1 = c) st.pushLog = some (c, some pk)
      ∧ pk ∈ st.allNodes.map Prod.fst
      ∧ c ∈ st.allNodes.map Prod.fst
      ∧ ∀ ctxp ctxc, (pk, ctxp) ∈ st.allNodes → (c, ctxc) ∈ st.allNodes →
          ctxc.depth = ctxp.depth + 1
  rootDepth : ∀ k ∈ st.rootKeys, k ∈ st.allNodes.map Prod.fst
      ∧ ∀ ctx, (k, ctx) ∈ st.allNodes → ctx.depth = 0
  frontierPar : ∀ e ∈ st.frontier, ∀ pk, e.parent = some pk →
      pk ∈ st.allNodes.map Prod.fst
      ∧ ∀ ctxp, (pk, ctxp) ∈ st.allNodes → e.depth = ctxp.depth + 1

/-! ## Specification-side definitions

These definitions follow the *words of the specification's claims* (not the
source) and exist only to be compared against the source-derived functions
above. -/

def isOkE {α : Type} : Except String α → Bool
  | Except.ok _ => true
  | Except.error _ => false

def isErrE {α : Type} : Except String α → Bool
  | Except.ok _ => false
  | Except.error _ => true

/-- Claim C9: the constraint fragment(s) contributed by one OSV range event —
`>= v` for `introduced` values other than `"0"`, `< v` for `fixed`, `<= v`
for `last_affected`. -/
def specRangeFragments (e : OsvEvent) : List String :=
  (match e.introduced with
   | some v => if v ≠ "0" then [">= " ++ v] else []
   | none => []) ++
  (match e.fixed with
   | some v => ["< " ++ v]
   | none => []) ++
  (match e.last_affected with
   | some v => ["<= " ++ v]
   | none => [])

/-- `git_ref` with an optional leading `v` stripped. -/
def stripLeadingV (g : String) : String :=
  if startsWithChars "v".data g.data then g.drop 1 else g

/-- The first character exists and is an ASCII digit. -/
def headIsDigit (g : String) : Bool :=
  match g.data with
  | c :: _ => c.isDigit
  | [] => false

/-- The condition under which claim C7 demands `ref_type = Sha`. -/
def specShaCond (g : String) : Prop :=
  g.length = 40 ∧ g.data.all isAsciiHexDigit = true

/-- Claim C7's model invariant, stated exactly as the claim words it:
`raw` contains `'@'`; `owner` and `repo` are non-empty; `Sha` iff forty hex
characters; else `Tag` iff a digit follows the optional leading `v`; else
`Unknown`. -/
def specRefInvariant (ar : ActionRef) : Prop :=
  ('@' ∈ ar.raw.data)
  ∧ ar.owner ≠ "" ∧ ar.repo ≠ ""
  ∧ (ar.ref_type = RefType.Sha ↔ specShaCond ar.git_ref)
  ∧ (ar.ref_type ≠ RefType.Sha →
      (ar.ref_type = RefType.Tag ↔ headIsDigit (stripLeadingV ar.git_ref) = true))
  ∧ (ar.ref_type ≠ RefType.Sha → ar.ref_type ≠ RefType.Tag →
      ar.ref_type = RefType.Unknown)

/-- Claim C6: the 1-indexed positions covered by one comma-separated
selection item — `N` covers exactly {N}, `N-M` covers [N, M]. -/
def specItemCovers (part : List Char) (pos : Nat) : Bool :=
  let part := trimChars part
  match splitOnceChar '-' part with
  | some (startStr, endStr) =>
    match parseUsize (trimChars startStr), parseUsize (trimChars endStr) with
    | some n, some m => decide (n ≤ pos) && decide (pos ≤ m)
    | _, _ => false
  | none =>
    match parseUsize part with
    | some n => decide (pos = n)
    | none => false

/-! ## Concrete inputs used by counterexamples and witnesses -/

/-- The value `"/x@v1".parse::<ActionRef>()` actually produces: accepted,
with an empty `owner`. -/
def emptyOwnerRef : ActionRef :=
  { raw := "/x@v1"
    owner := ""
    repo := "x"
    path := none
    git_ref := "v1"
    ref_type := RefType.Tag }

/-- The value `"actions/checkout@v4".parse::<ActionRef>()` produces. -/
def checkoutRef : ActionRef :=
  { raw := "actions/checkout@v4"
    owner := "actions"
    repo := "checkout"
    path := none
    git_ref := "v4"
    ref_type := RefType.Tag }

/-- A GHSA API record whose severity field carries uppercase text. -/
def ghsaUppercaseItem : GhsaAdvisoryResponse :=
  { ghsa_id := some "GHSA-aaaa-bbbb-cccc"
    summary := some "some issue"
    severity := some "HIGH"
    html_url := some "https://example.com/a"
    vulnerabilities := [] }

def sampleAction : ActionRef :=
  { raw := "a/b@v1"
    owner := "a"
    repo := "b"
    path := none
    git_ref := "v1"
    ref_type := RefType.Tag }

def sampleCtx : AuditContext :=
  initCtx sampleAction 0 none 0

def mkTestAction (owner repo : String) : ActionRef :=
  { raw := owner ++ "/" ++ repo ++ "@v1"
    owner := owner
    repo := repo
    path := none
    git_ref := "v1"
    ref_type := RefType.Tag }

/-- A child-expansion map over a cyclic, diamond-shaped graph:
`A → [B, C]`, `B → [C, A]`, `C → [A]`. -/
def testExpand (raw : String) : List ActionRef :=
  if raw = "a/A@v1" then [mkTestAction "a" "B", mkTestAction "a" "C"]
  else if raw = "a/B@v1" then [mkTestAction "a" "C", mkTestAction "a" "A"]
  else if raw = "a/C@v1" then [mkTestAction "a" "A"]
  else []

/-- A pipeline behaviour that installs `testExpand`'s children. -/
def testPipeline (ctx : AuditContext) : AuditContext :=
  { ctx with children := testExpand ctx.action.raw }

def testRoots : List ActionRef :=
  [mkTestAction "a" "A", mkTestAction "a" "A"]

/-- A stage that mutates nothing and fails with message `"boom"`. -/
def boomStage : StageModel :=
  { name := "bad", run := fun c => (Except.error "boom", c) }

/-- The two cross-referencing advisories of the specification's scenario 4. -/
def advGhsa : Advisory :=
  { id := "GHSA-mcph-m25j-8j63"
    aliases := ["CVE-2025-30066"]
    summary := "workflow compromise"
    severity := "critical"
    url := "https://example.com/g"
    affected_range := none
    source := "GHSA" }

def advCve : Advisory :=
  { id := "CVE-2025-30066"
    aliases := ["GHSA-mcph-m25j-8j63"]
    summary := "workflow compromise"
    severity := "critical"
    url := "https://example.com/c"
    affected_range := none
    source := "OSV" }

/-! # Supporting lemmas -/

theorem char_toNat_ofNat_valid {n : Nat} (h : n < 55296) :
    (Char.ofNat n).toNat = n := by
  rw [Char.ofNat, dif_pos (Or.inl h)]
  show (UInt32.ofNat' n _).toNat = n
  simp [UInt32.ofNat', UInt32.toNat]

theorem asciiLowerChar_not_upper (c : Char) :
    ¬ (65 ≤ (asciiLowerChar c).toNat ∧ (asciiLowerChar c).toNat ≤ 90) := by
  unfold asciiLowerChar
  split
  · rename_i h
    rw [char_toNat_ofNat_valid (by omega)]
    omega
  · rename_i h
    exact h

theorem isLowercaseStr_toLowercase (s : String) :
    isLowercaseStr (toLowercase s) = true := by
  simp only [isLowercaseStr, toLowercase, List.all_eq_true]
  intro c hc
  obtain ⟨c0, _, rfl⟩ := List.mem_map.mp hc
  exact decide_eq_true_eq.mpr (asciiLowerChar_not_upper c0)

theorem rangeEventStep_eq (parts : List String) (e : OsvEvent) :
    rangeEventStep parts e = parts ++ specRangeFragments e := by
  rcases e with ⟨i, f, l⟩
  cases i <;> cases f <;> cases l <;>
    simp [rangeEventStep, specRangeFragments] <;>
    split <;> simp

theorem foldl_rangeEventStep (events : List OsvEvent) :
    ∀ init : List String,
      events.foldl rangeEventStep init = init ++ events.flatMap specRangeFragments := by
  induction events with
  | nil => intro init; simp
  | cons e rest ih =>
    intro init
    simp [List.foldl_cons, rangeEventStep_eq, ih]

theorem seenContains_iff (seen : List String) (x : String) :
    seenContains seen x = true ↔ x ∈ seen := by
  simp [seenContains]

theorem blockedBy_iff (seen : List String) (adv : Advisory) :
    blockedBy seen adv = true ↔ adv.id ∈ seen ∨ ∃ a ∈ adv.aliases, a ∈ seen := by
  simp [blockedBy, seenContains_iff]

theorem blockedBy_mono {s t : List String} (hsub : ∀ x, x ∈ s → x ∈ t)
    (adv : Advisory) (h : blockedBy s adv = true) : blockedBy t adv = true := by
  rw [blockedBy_iff] at h ⊢
  rcases h with h | ⟨a, ha, has⟩
  · exact Or.inl (hsub _ h)
  · exact Or.inr ⟨a, ha, hsub _ has⟩

theorem mem_seenAfter (xs : List Advisory) :
    ∀ seen x, x ∈ seen → x ∈ seenAfter seen xs := by
  induction xs with
  | nil => intro seen x hx; simpa [seenAfter] using hx
  | cons a rest ih =>
    intro seen x hx
    rw [seenAfter]
    split
    · exact ih seen x hx
    · exact ih _ x (by simp [hx])

theorem blocked_seenAfter (xs : List Advisory) :
    ∀ seen, ∀ adv ∈ xs, blockedBy (seenAfter seen xs) adv = true := by
  induction xs with
  | nil => intro seen adv h; simp at h
  | cons a rest ih =>
    intro seen adv hmem
    rw [seenAfter]
    rcases List.mem_cons.mp hmem with rfl | htail
    · split
      · rename_i hb
        exact blockedBy_mono (fun x hx => mem_seenAfter rest seen x hx) adv hb
      · apply blockedBy_mono (fun x hx => mem_seenAfter rest _ x hx) adv
        rw [blockedBy_iff]
        exact Or.inl (by simp)
    · split
      · exact ih seen adv htail
      · exact ih _ adv htail

theorem dedupAux_append (xs : List Advisory) :
    ∀ ys seen,
      dedupAux seen (xs ++ ys) = dedupAux seen xs ++ dedupAux (seenAfter seen xs) ys := by
  induction xs with
  | nil => intro ys seen; simp [dedupAux, seenAfter]
  | cons a rest ih =>
    intro ys seen
    rw [List.cons_append, dedupAux, dedupAux, seenAfter]
    split
    · exact ih ys seen
    · rw [ih ys _, List.cons_append]
      simp

theorem dedupAux_nil_of_blocked (xs : List Advisory) :
    ∀ seen, (∀ adv ∈ xs, blockedBy seen adv = true) → dedupAux seen xs = [] := by
  induction xs with
  | nil => intro seen _; rfl
  | cons a rest ih =>
    intro seen h
    rw [dedupAux]
    split
    · exact ih seen (fun adv hm => h adv (List.mem_cons_of_mem a hm))
    · rename_i hb
      exact absurd (h a (List.mem_cons_self a rest)) hb

theorem dedupAux_dedupAux (xs : List Advisory) :
    ∀ seen, dedupAux seen (dedupAux seen xs) = dedupAux seen xs := by
  induction xs with
  | nil => intro seen; rfl
  | cons a rest ih =>
    intro seen
    rw [dedupAux]
    split
    · exact ih seen
    · rename_i hb
      rw [dedupAux]
      rw [if_neg hb]
      rw [ih]

theorem splitOnceChar_mem {c : Char} :
    ∀ {l : List Char} {p}, splitOnceChar c l = some p → c ∈ l := by
  intro l
  induction l with
  | nil => intro p h; simp [splitOnceChar] at h
  | cons x xs ih =>
    intro p h
    rw [splitOnceChar] at h
    by_cases hx : x = c
    · simp [hx]
    · rw [if_neg hx] at h
      rcases hsp : splitOnceChar c xs with _ | q
      · rw [hsp] at h; simp at h
      · exact List.mem_cons_of_mem x (ih hsp)

theorem classify_ref_cases (g : String) :
    (specShaCond g ∧ classify_ref g = RefType.Sha)
    ∨ (¬ specShaCond g ∧ headIsDigit (stripLeadingV g) = true
        ∧ classify_ref g = RefType.Tag)
    ∨ (¬ specShaCond g ∧ headIsDigit (stripLeadingV g) = false
        ∧ classify_ref g = RefType.Unknown) := by
  by_cases h : specShaCond g
  · refine Or.inl ⟨h, ?_⟩
    unfold specShaCond at h
    unfold classify_ref
    rw [if_pos h]
  · have hcl : classify_ref g =
        (if headIsDigit (stripLeadingV g) then RefType.Tag else RefType.Unknown) := by
      unfold specShaCond at h
      unfold classify_ref
      rw [if_neg h]
      unfold headIsDigit stripLeadingV
      rcases hdata : (if startsWithChars "v".data g.data then g.drop 1 else g).data
        with _ | ⟨c, cs⟩
      · simp [hdata]
      · by_cases hd : c.isDigit <;> simp [hdata, hd]
    by_cases hd : headIsDigit (stripLeadingV g) = true
    · exact Or.inr (Or.inl ⟨h, hd, by rw [hcl, if_pos hd]⟩)
    · refine Or.inr (Or.inr ⟨h, by simpa using hd, ?_⟩)
      rw [hcl, if_neg hd]

theorem classify_ref_iffs (g : String) :
    (classify_ref g = RefType.Sha ↔ specShaCond g)
    ∧ (classify_ref g = RefType.Tag ↔
        (¬ specShaCond g ∧ headIsDigit (stripLeadingV g) = true))
    ∧ (classify_ref g = RefType.Unknown ↔
        (¬ specShaCond g ∧ headIsDigit (stripLeadingV g) = false)) := by
  rcases classify_ref_cases g with ⟨h1, h2⟩ | ⟨h1, h2, h3⟩ | ⟨h1, h2, h3⟩ <;>
    refine ⟨?_, ?_, ?_⟩ <;>
    simp_all

theorem seenContainsNat_iff (l : List Nat) (x : Nat) :
    seenContainsNat l x = true ↔ x ∈ l := by
  simp [seenContainsNat]

theorem mem_insertSorted (n x : Nat) :
    ∀ l : List Nat, x ∈ insertSorted n l ↔ x = n ∨ x ∈ l := by
  intro l
  induction l with
  | nil => simp [insertSorted]
  | cons y ys ih =>
    rw [insertSorted]
    split
    · simp only [List.mem_cons]
      try tauto
    · split
      · rename_i hlt heq
        subst heq
        simp only [List.mem_cons]
        try tauto
      · simp only [List.mem_cons, ih]
        try tauto

theorem mem_foldl_insertSorted (l : List Nat) :
    ∀ acc x, x ∈ l.foldl (fun a i => insertSorted i a) acc ↔ x ∈ l ∨ x ∈ acc := by
  induction l with
  | nil => simp
  | cons y ys ih =>
    intro acc x
    rw [List.foldl_cons, ih, mem_insertSorted]
    simp only [List.mem_cons]
    try tauto

theorem mem_insertRange (a b x : Nat) (acc : List Nat) :
    x ∈ insertRange a b acc ↔ (a ≤ x ∧ x ≤ b) ∨ x ∈ acc := by
  rw [insertRange, mem_foldl_insertSorted, List.mem_range']
  constructor
  · rintro (⟨i, hi, rfl⟩ | hx)
    · exact Or.inl (by omega)
    · exact Or.inr hx
  · rintro (⟨h1, h2⟩ | hx)
    · exact Or.inl ⟨x - a, by omega⟩
    · exact Or.inr hx

theorem processPart_ok_mem (acc : List Nat) (part : List Char) (acc2 : List Nat)
    (h : processPart acc part = Except.ok acc2) :
    ∀ pos, pos ∈ acc2 ↔ specItemCovers part pos = true ∨ pos ∈ acc := by
  intro pos
  simp only [processPart] at h
  split at h
  · rename_i hempty
    injection h with h2
    subst h2
    rw [List.isEmpty_iff] at hempty
    simp only [specItemCovers, hempty]
    have h1 : splitOnceChar '-' ([] : List Char) = none := rfl
    have h2 : parseUsize ([] : List Char) = none := rfl
    rw [h1, h2]
    simp
  · split at h
    · rename_i a b hsp
      rcases hn : parseUsize (trimChars a) with _ | n
      · simp only [hn] at h
        cases h
      · simp only [hn] at h
        rcases hm : parseUsize (trimChars b) with _ | m
        · simp only [hm] at h
          cases h
        · simp only [hm] at h
          split at h
          · cases h
          · split at h
            · cases h
            · injection h with h2
              subst h2
              simp only [specItemCovers, hsp, hn, hm]
              rw [mem_insertRange]
              simp only [Bool.and_eq_true, decide_eq_true_eq]
              try tauto
    · rename_i hsp
      rcases hn : parseUsize (trimChars part) with _ | n
      · simp only [hn] at h
        cases h
      · simp only [hn] at h
        split at h
        · cases h
        · injection h with h2
          subst h2
          simp only [specItemCovers, hsp, hn]
          rw [mem_insertSorted]
          simp

theorem processPart_err_all (part : List Char)
    (h : ∀ a : List Nat, isErrE (processPart a part) = true) :
    ∀ parts, part ∈ parts →
      ∀ acc0, isErrE (accumulateParts acc0 parts) = true := by
  intro parts
  induction parts with
  | nil => intro hm; simp at hm
  | cons p rest ih =>
    intro hm acc0
    rw [accumulateParts]
    rcases List.mem_cons.mp hm with rfl | htail
    · rcases hpp : processPart acc0 part with e | a2
      · rfl
      · have := h acc0
        rw [hpp] at this
        cases this
    · rcases hpp : processPart acc0 p with e | a2
      · rfl
      · exact ih htail a2

theorem accumulateParts_ok_mem :
    ∀ (parts : List (List Char)) (acc acc2 : List Nat),
      accumulateParts acc parts = Except.ok acc2 →
      ∀ pos, pos ∈ acc2 ↔
        (∃ part ∈ parts, specItemCovers part pos = true) ∨ pos ∈ acc := by
  intro parts
  induction parts with
  | nil =>
    intro acc acc2 h pos
    injection h with h2
    subst h2
    simp
  | cons p rest ih =>
    intro acc acc2 h pos
    rw [accumulateParts] at h
    rcases hpp : processPart acc p with e | a2
    · rw [hpp] at h; cases h
    · rw [hpp] at h
      rw [ih a2 acc2 h pos, processPart_ok_mem acc p a2 hpp pos]
      constructor
      · rintro (⟨q, hq, hcov⟩ | hcov | hacc)
        · exact Or.inl ⟨q, List.mem_cons_of_mem p hq, hcov⟩
        · exact Or.inl ⟨p, List.mem_cons_self p rest, hcov⟩
        · exact Or.inr hacc
      · rintro (⟨q, hq, hcov⟩ | hacc)
        · rcases List.mem_cons.mp hq with rfl | hq2
          · exact Or.inr (Or.inl hcov)
          · exact Or.inl ⟨q, hq2, hcov⟩
        · exact Or.inr (Or.inr hacc)

theorem from_str_indices (s : String) (indices : List Nat)
    (h : ScanSelection.from_str s = Except.ok (ScanSelection.Indices indices)) :
    accumulateParts [] (splitChar ',' (trimChars s.data)) = Except.ok indices := by
  simp only [ScanSelection.from_str] at h
  split at h
  · cases h
  · split at h
    · cases h
    · split at h
      · cases h
      · rename_i idx hacc
        split at h
        · cases h
        · injection h with h2
          injection h2 with h3
          rw [hacc, h3]

/-! ## Walker support lemmas -/

theorem seenContains_iff_mem (seen : List String) (x : String) :
    seenContains seen x = true ↔ x ∈ seen :=
  seenContains_iff seen x

theorem firstDedupAux_not_seen :
    ∀ (l : List String) (seen : List String) (x : String),
      x ∈ firstDedupAux seen l → ¬ x ∈ seen := by
  intro l
  induction l with
  | nil => intro seen x h; simp [firstDedupAux] at h
  | cons y ys ih =>
    intro seen x h
    rw [firstDedupAux] at h
    split at h
    · exact ih seen x h
    · rcases List.mem_cons.mp h with rfl | h2
      · rename_i hns
        rw [seenContains_iff_mem] at hns
        simpa using hns
      · intro hx
        exact ih (y :: seen) x h2 (List.mem_cons_of_mem y hx)

theorem firstDedupAux_nodup :
    ∀ (l : List String) (seen : List String), (firstDedupAux seen l).Nodup := by
  intro l
  induction l with
  | nil => intro seen; simp [firstDedupAux]
  | cons y ys ih =>
    intro seen
    rw [firstDedupAux]
    split
    · exact ih seen
    · refine List.Nodup.cons ?_ (ih (y :: seen))
      intro hmem
      exact firstDedupAux_not_seen ys (y :: seen) y hmem (List.mem_cons_self y seen)

theorem filterLevel_visited_sub (level : List FrontierEntry) :
    ∀ visited x, x ∈ visited → x ∈ (filterLevel visited level).1 := by
  induction level with
  | nil => intro visited x h; exact h
  | cons e rest ih =>
    intro visited x h
    rw [filterLevel]
    split
    · exact ih visited x h
    · exact ih _ x (List.mem_cons_of_mem _ h)

theorem filterLevel_visited_level (level : List FrontierEntry) :
    ∀ visited e, e ∈ level → e.action.raw ∈ (filterLevel visited level).1 := by
  induction level with
  | nil => intro visited e h; simp at h
  | cons e0 rest ih =>
    intro visited e h
    rw [filterLevel]
    rcases List.mem_cons.mp h with rfl | h2
    · split
      · rename_i hseen
        rw [seenContains_iff_mem] at hseen
        exact filterLevel_visited_sub rest visited _ hseen
      · exact filterLevel_visited_sub rest _ _ (List.mem_cons_self _ _)
    · split
      · exact ih visited e h2
      · exact ih _ e h2

theorem filterLevel_toProcess (level : List FrontierEntry) :
    ∀ visited e k, (e, k) ∈ (filterLevel visited level).2 →
      k = e.action.raw ∧ ¬ k ∈ visited ∧
        List.find? (fun e2 => e2.action.raw = k) level = some e := by
  induction level with
  | nil => intro visited e k h; simp [filterLevel] at h
  | cons e0 rest ih =>
    intro visited e k h
    rw [filterLevel] at h
    split at h
    · rename_i hseen
      obtain ⟨hk, hnv, hfind⟩ := ih visited e k h
      refine ⟨hk, hnv, ?_⟩
      rw [List.find?_cons]
      split
      · rename_i hraw
        simp at hraw
        rw [seenContains_iff_mem] at hseen
        rw [hraw] at hseen
        exact absurd hseen hnv
      · exact hfind
    · rename_i hseen
      rw [seenContains_iff_mem] at hseen
      rcases List.mem_cons.mp h with heq | h2
      · injection heq with he hk
        subst he
        subst hk
        refine ⟨rfl, hseen, ?_⟩
        rw [List.find?_cons]
        split
        · rfl
        · rename_i hraw
          simp at hraw
      · obtain ⟨hk, hnv, hfind⟩ := ih _ e k h2
        have hknv : ¬ k ∈ visited := fun hx => hnv (List.mem_cons_of_mem _ hx)
        have hkne : k ≠ e0.action.raw := by
          intro hkeq
          exact hnv (by rw [hkeq]; exact List.mem_cons_self _ _)
        refine ⟨hk, hknv, ?_⟩
        rw [List.find?_cons]
        split
        · rename_i hraw
          simp at hraw
          exact absurd hraw.symm hkne
        · exact hfind

theorem filterLevel_keys (level : List FrontierEntry) :
    ∀ visited, (filterLevel visited level).2.map Prod.snd
      = firstDedupAux visited (level.map (fun e => e.action.raw)) := by
  induction level with
  | nil => intro visited; rfl
  | cons e0 rest ih =>
    intro visited
    rw [filterLevel, List.map_cons, firstDedupAux]
    split
    · exact ih visited
    · show e0.action.raw :: (filterLevel (e0.action.raw :: visited) rest).2.map Prod.snd
        = e0.action.raw
          :: firstDedupAux (e0.action.raw :: visited) (rest.map (fun e => e.action.raw))
      rw [ih]

theorem filterLevel_keys_nodup (level : List FrontierEntry) (visited : List String) :
    ((filterLevel visited level).2.map Prod.snd).Nodup := by
  rw [filterLevel_keys]
  exact firstDedupAux_nodup _ _

theorem filterLevel_mem_level (level : List FrontierEntry) (visited : List String)
    (e : FrontierEntry) (k : String) (h : (e, k) ∈ (filterLevel visited level).2) :
    e ∈ level :=
  List.mem_of_find?_eq_some (filterLevel_toProcess level visited e k h).2.2

/-! ## Walker support lemmas: recordKeys -/

theorem mem_lookupCO_pushChild (co : List (String × List String))
    (pk key pk2 c : String) (h : c ∈ lookupCO (pushChild co pk key) pk2) :
    c ∈ lookupCO co pk2 ∨ (c = key ∧ pk2 = pk) := by
  rw [pushChild] at h
  split at h
  · rw [lookupCO, List.find?_map] at h
    have hcomp : ((fun p : String × List String => decide (p.1 = pk2)) ∘
        (fun p => if p.1 = pk then (p.1, p.2 ++ [key]) else p))
        = (fun p : String × List String => decide (p.1 = pk2)) := by
      funext p
      by_cases hp : p.1 = pk <;> simp [Function.comp, hp]
    rw [hcomp] at h
    rcases hfind : List.find? (fun p : String × List String => p.1 = pk2) co with _ | p0
    · rw [hfind] at h
      simp at h
    · rw [hfind] at h
      have hp0 : p0.1 = pk2 := by
        have := List.find?_some hfind
        simpa using this
      rw [Option.map_some'] at h
      have hlook : lookupCO co pk2 = p0.2 := by
        rw [lookupCO, hfind]
      by_cases hpk : p0.1 = pk
      · simp only [hpk, if_pos rfl] at h
        rcases List.mem_append.mp h with h2 | h2
        · exact Or.inl (by rw [hlook]; exact h2)
        · simp at h2
          exact Or.inr ⟨h2, by rw [← hp0]; exact hpk⟩
      · simp only [if_neg hpk] at h
        exact Or.inl (by rw [hlook]; exact h)
  · rw [lookupCO, List.find?_append] at h
    rcases hfind : List.find? (fun p : String × List String => p.1 = pk2) co with _ | p0
    · rw [hfind] at h
      simp only [Option.none_or] at h
      by_cases hpk : pk = pk2
      · rw [List.find?_cons_of_pos _ (by simpa using hpk)] at h
        simp at h
        exact Or.inr ⟨h, hpk.symm⟩
      · rw [List.find?_cons_of_neg _ (by simpa using hpk)] at h
        simp [List.find?] at h
    · rw [hfind] at h
      simp only [Option.or_some] at h
      exact Or.inl (by rw [lookupCO, hfind]; exact h)

theorem recordKeys_rootKeys :
    ∀ (tp : List (FrontierEntry × String)) rk co,
      (recordKeys rk co tp).1
        = rk ++ (tp.filter (fun p => p.1.depth = 0)).map Prod.snd := by
  intro tp
  induction tp with
  | nil => intro rk co; simp [recordKeys]
  | cons p rest ih =>
    intro rk co
    rcases p with ⟨e, key⟩
    rw [recordKeys]
    by_cases hd : e.depth = 0
    · rw [if_pos hd, ih]
      rw [List.filter_cons]
      simp [hd]
    · rw [if_neg hd, ih]
      rw [List.filter_cons]
      simp [hd]

theorem recordKeys_co_sub :
    ∀ (tp : List (FrontierEntry × String)) rk co pk c,
      c ∈ lookupCO (recordKeys rk co tp).2 pk →
      c ∈ lookupCO co pk ∨ ∃ e, (e, c) ∈ tp ∧ e.parent = some pk := by
  intro tp
  induction tp with
  | nil =>
    intro rk co pk c h
    exact Or.inl h
  | cons p rest ih =>
    intro rk co pk c h
    rcases p with ⟨e, key⟩
    rw [recordKeys] at h
    rcases hpar : e.parent with _ | pk0
    · rw [hpar] at h
      rcases ih _ _ pk c h with h2 | ⟨e2, hm, hp⟩
      · exact Or.inl h2
      · exact Or.inr ⟨e2, List.mem_cons_of_mem _ hm, hp⟩
    · rw [hpar] at h
      rcases ih _ _ pk c h with h2 | ⟨e2, hm, hp⟩
      · rcases mem_lookupCO_pushChild co pk0 key pk c h2 with h3 | ⟨hck, hpk⟩
        · exact Or.inl h3
        · subst hck
          subst hpk
          exact Or.inr ⟨e, List.mem_cons_self _ _, hpar⟩
      · exact Or.inr ⟨e2, List.mem_cons_of_mem _ hm, hp⟩

/-! ## Walker support lemmas: level processing and result collection -/

theorem mem_enumFrom_snd {α : Type} :
    ∀ (l : List α) (n : Nat) (p : Nat × α), p ∈ List.enumFrom n l → p.2 ∈ l := by
  intro l
  induction l with
  | nil => intro n p h; simp at h
  | cons x xs ih =>
    intro n p h
    rw [List.enumFrom] at h
    rcases List.mem_cons.mp h with rfl | h2
    · simp
    · exact List.mem_cons_of_mem _ (ih (n + 1) p h2)

theorem processLevel_mem (f : AuditContext → AuditContext)
    (tp : List (FrontierEntry × String)) :
    ∀ pn ∈ processLevel f tp,
      ∃ i e, (e, pn.key) ∈ tp
        ∧ pn.context = f (initCtx e.action e.depth e.parent i) := by
  intro pn hpn
  rw [processLevel] at hpn
  obtain ⟨q, hq, rfl⟩ := List.mem_map.mp hpn
  have hq2 : q.2 ∈ tp := mem_enumFrom_snd tp 0 q hq
  exact ⟨q.1, q.2.1, hq2, rfl⟩

theorem processLevel_keys (f : AuditContext → AuditContext)
    (tp : List (FrontierEntry × String)) :
    (processLevel f tp).map (fun pn => pn.key) = tp.map Prod.snd := by
  rw [processLevel, List.map_map]
  have h1 : tp.map Prod.snd = (tp.enum.map Prod.snd).map Prod.snd := by
    rw [List.enum_map_snd]
  rw [h1, List.map_map]
  rfl

theorem collectStep_eq (md : Option Nat)
    (acc : List (String × AuditContext) × List FrontierEntry) (pn : ProcessedNode) :
    collectStep md acc pn
      = (acc.1 ++ [(pn.key, pn.context)], acc.2 ++ childEntriesOf md pn) := by
  rw [collectStep, childEntriesOf]
  split <;> simp

theorem collectResults_foldl (md : Option Nat) :
    ∀ (rs : List ProcessedNode)
      (acc : List (String × AuditContext) × List FrontierEntry),
      rs.foldl (collectStep md) acc
        = (acc.1 ++ rs.map (fun pn => (pn.key, pn.context)),
           acc.2 ++ rs.flatMap (childEntriesOf md)) := by
  intro rs
  induction rs with
  | nil => intro acc; simp
  | cons pn rest ih =>
    intro acc
    rw [List.foldl_cons, collectStep_eq, ih]
    simp

theorem collectResults_spec (md : Option Nat)
    (ns : List (String × AuditContext)) (rs : List ProcessedNode) :
    (collectResults md ns rs).1 = ns ++ rs.map (fun pn => (pn.key, pn.context))
    ∧ (collectResults md ns rs).2 = rs.flatMap (childEntriesOf md) := by
  rw [collectResults, collectResults_foldl]
  exact ⟨rfl, rfl⟩

theorem find?_append_some {α : Type} {p : α → Bool} {l1 l2 : List α} {x : α}
    (h : List.find? p l1 = some x) : List.find? p (l1 ++ l2) = some x := by
  rw [List.find?_append, h]
  rfl

theorem find?_append_none {α : Type} {p : α → Bool} {l1 l2 : List α}
    (h : List.find? p l1 = none) : List.find? p (l1 ++ l2) = List.find? p l2 := by
  rw [List.find?_append, h]
  simp

theorem nodup_key_unique {α κ : Type} (g : α → κ) :
    ∀ (l : List α), (l.map g).Nodup →
      ∀ a b, a ∈ l → b ∈ l → g a = g b → a = b := by
  intro l
  induction l with
  | nil => intro _ a b ha; simp at ha
  | cons x xs ih =>
    intro hnd a b ha hb hg
    rw [List.map_cons, List.nodup_cons] at hnd
    rcases List.mem_cons.mp ha with rfl | ha2 <;>
      rcases List.mem_cons.mp hb with rfl | hb2
    · rfl
    · exact absurd (hg ▸ List.mem_map_of_mem g hb2) hnd.1
    · exact absurd (hg ▸ List.mem_map_of_mem g ha2) (by rw [← hg] at hnd ⊢; exact hnd.1)
    · exact ih hnd.2 a b ha2 hb2 hg

/-! ## Walker support lemmas: the loop invariant -/

theorem walkInv_step (md : Option Nat) (f : AuditContext → AuditContext)
    (hact : ∀ ctx, (f ctx).action = ctx.action)
    (hdepth : ∀ ctx, (f ctx).depth = ctx.depth)
    (st : WalkState) (inv : WalkInv md f st) : WalkInv md f (walkStep f md st) := by
  obtain ⟨done0, hlog, hdone0⟩ := inv.pushSplit
  have hvissub := filterLevel_visited_sub st.frontier st.visited
  have hvislevel := filterLevel_visited_level st.frontier
  have hlogvis : ∀ q ∈ st.pushLog, q.1 ∈ (filterLevel st.visited st.frontier).1 := by
    intro q hq
    rw [hlog] at hq
    rcases List.mem_append.mp hq with hq1 | hq2
    · exact hvissub q.1 (hdone0 q hq1)
    · obtain ⟨e, he, rfl⟩ := List.mem_map.mp hq2
      exact hvislevel st.visited e he
  simp only [walkStep]
  split
  · exact
      { nodupKeys := inv.nodupKeys
        keysVisited := fun k hk => hvissub k (inv.keysVisited k hk)
        rawEq := inv.rawEq
        depthBound := fun m hm =>
          ⟨fun e he => absurd he (by simp), (inv.depthBound m hm).2⟩
        pushSplit := ⟨st.pushLog, by simp, hlogvis⟩
        coEdge := inv.coEdge
        rootDepth := inv.rootDepth
        frontierPar := fun e he => absurd he (by simp) }
  · rename_i hne
    have hcr := collectResults_spec md st.allNodes
      (processLevel f (filterLevel st.visited st.frontier).2)
    rw [hcr.1, hcr.2, recordKeys_rootKeys]
    set tp := (filterLevel st.visited st.frontier).2 with htp
    set vis2 := (filterLevel st.visited st.frontier).1 with hvis2
    set results := processLevel f tp with hresdef
    -- basic facts about the admitted level
    have htpfact : ∀ e k, (e, k) ∈ tp →
        k = e.action.raw ∧ ¬ k ∈ st.visited ∧
          List.find? (fun e2 => e2.action.raw = k) st.frontier = some e :=
      fun e k h => filterLevel_toProcess st.frontier st.visited e k h
    have htpnodup : (tp.map Prod.snd).Nodup :=
      filterLevel_keys_nodup st.frontier st.visited
    have htplevel : ∀ e k, (e, k) ∈ tp → e ∈ st.frontier :=
      fun e k h => filterLevel_mem_level st.frontier st.visited e k h
    have hresmem := processLevel_mem f tp
    have hreskeys : results.map (fun pn => pn.key) = tp.map Prod.snd :=
      processLevel_keys f tp
    have hresnodup : (results.map (fun pn => pn.key)).Nodup := by
      rw [hreskeys]; exact htpnodup
    have hkeymem : ∀ pn ∈ results, pn.key ∈ tp.map Prod.snd := by
      intro pn hpn
      rw [← hreskeys]
      exact List.mem_map_of_mem _ hpn
    have hfresh : ∀ k ∈ tp.map Prod.snd, ¬ k ∈ st.visited := by
      intro k hk
      obtain ⟨p, hp, rfl⟩ := List.mem_map.mp hk
      exact (htpfact p.1 p.2 hp).2.1
    have hdisj : ∀ k ∈ tp.map Prod.snd, ¬ k ∈ st.allNodes.map Prod.fst := by
      intro k hk hk2
      exact hfresh k hk (inv.keysVisited k hk2)
    have htpvis2 : ∀ k ∈ tp.map Prod.snd, k ∈ vis2 := by
      intro k hk
      obtain ⟨p, hp, rfl⟩ := List.mem_map.mp hk
      have := hvislevel st.visited p.1 (htplevel p.1 p.2 hp)
      rwa [(htpfact p.1 p.2 hp).1]
    have hnewraw : ∀ pn ∈ results, pn.context.action.raw = pn.key := by
      intro pn hpn
      obtain ⟨i, e, htpm, hctx⟩ := hresmem pn hpn
      rw [hctx, hact]
      exact ((htpfact e pn.key htpm).1).symm
    have hnewdepth : ∀ pn ∈ results, ∃ e, (e, pn.key) ∈ tp ∧
        pn.context.depth = e.depth := by
      intro pn hpn
      obtain ⟨i, e, htpm, hctx⟩ := hresmem pn hpn
      exact ⟨e, htpm, by rw [hctx, hdepth]; rfl⟩
    have hkeys2 : (st.allNodes ++ results.map (fun pn => (pn.key, pn.context))).map
        Prod.fst = st.allNodes.map Prod.fst ++ tp.map Prod.snd := by
      rw [List.map_append, List.map_map, ← hreskeys]
      rfl
    -- dichotomy for membership in the extended node map
    have hmem2 : ∀ k ctx,
        (k, ctx) ∈ st.allNodes ++ results.map (fun pn => (pn.key, pn.context)) →
        (k, ctx) ∈ st.allNodes ∨ ∃ pn ∈ results, pn.key = k ∧ pn.context = ctx := by
      intro k ctx hm
      rcases List.mem_append.mp hm with hm | hm
      · exact Or.inl hm
      · obtain ⟨pn, hpn, heq⟩ := List.mem_map.mp hm
        injection heq with h1 h2
        exact Or.inr ⟨pn, hpn, h1, h2⟩
    have holdmem : ∀ k ctx, k ∈ st.allNodes.map Prod.fst →
        (k, ctx) ∈ st.allNodes ++ results.map (fun pn => (pn.key, pn.context)) →
        (k, ctx) ∈ st.allNodes := by
      intro k ctx hk hm
      rcases hmem2 k ctx hm with h | ⟨pn, hpn, h1, h2⟩
      · exact h
      · exact absurd hk (hdisj k (h1 ▸ hkeymem pn hpn))
    have hnewmem : ∀ k ctx, k ∈ tp.map Prod.snd →
        (k, ctx) ∈ st.allNodes ++ results.map (fun pn => (pn.key, pn.context)) →
        ∃ pn ∈ results, pn.key = k ∧ pn.context = ctx := by
      intro k ctx hk hm
      rcases hmem2 k ctx hm with h | h
      · exact absurd (List.mem_map_of_mem Prod.fst h) (hdisj k hk)
      · exact h
    -- the unique level entry behind a fresh key
    have htpunique : ∀ e e2 k, (e, k) ∈ tp → (e2, k) ∈ tp → e = e2 := by
      intro e e2 k h1 h2
      have := nodup_key_unique Prod.snd tp htpnodup (e, k) (e2, k) h1 h2 rfl
      injection this with h3 _
    -- frontier entries contributed by one processed node
    have hchild : ∀ e2 ∈ results.flatMap (childEntriesOf md),
        ∃ pn ∈ results, e2.parent = some pn.key
          ∧ e2.depth = pn.context.depth + 1
          ∧ shouldExpandAt md pn.context.depth = true := by
      intro e2 he2
      obtain ⟨pn, hpn, hin⟩ := List.mem_flatMap.mp he2
      rw [childEntriesOf] at hin
      split at hin
      · obtain ⟨c0, hc0, rfl⟩ := List.mem_map.mp hin
        rename_i hexp
        exact ⟨pn, hpn, rfl, rfl, hexp⟩
      · simp at hin
    constructor
    -- nodupKeys
    · rw [hkeys2]
      refine List.Nodup.append inv.nodupKeys htpnodup ?_
      rw [List.disjoint_left]
      intro k hk1 hk2
      exact hdisj k hk2 hk1
    -- keysVisited
    · intro k hk
      rw [hkeys2] at hk
      rcases List.mem_append.mp hk with hk | hk
      · exact hvissub k (inv.keysVisited k hk)
      · exact htpvis2 k hk
    -- rawEq
    · intro p hp
      rcases hmem2 p.1 p.2 hp with h | ⟨pn, hpn, h1, h2⟩
      · exact inv.rawEq p h
      · rw [← h2, ← h1]
        exact hnewraw pn hpn
    -- depthBound
    · intro m hm
      constructor
      · intro e2 he2
        obtain ⟨pn, hpn, _, hd, hexp⟩ := hchild e2 he2
        rw [hm, shouldExpandAt] at hexp
        simp at hexp
        omega
      · intro p hp
        rcases hmem2 p.1 p.2 hp with h | ⟨pn, hpn, h1, h2⟩
        · exact (inv.depthBound m hm).2 p h
        · obtain ⟨e, htpm, hd⟩ := hnewdepth pn hpn
          rw [← h2, hd]
          exact (inv.depthBound m hm).1 e (htplevel e pn.key htpm)
    -- pushSplit
    · exact ⟨st.pushLog, rfl, hlogvis⟩
    -- coEdge
    · intro pk c hc
      rcases recordKeys_co_sub tp st.rootKeys st.childrenOrder pk c hc
        with hold | ⟨e, htpm, hpar⟩
      · obtain ⟨hfind, hpk, hck, hdep⟩ := inv.coEdge pk c hold
        refine ⟨find?_append_some hfind, ?_, ?_, ?_⟩
        · rw [hkeys2]; exact List.mem_append_left _ hpk
        · rw [hkeys2]; exact List.mem_append_left _ hck
        · intro ctxp ctxc hp hcmem
          exact hdep ctxp ctxc (holdmem pk ctxp hpk hp) (holdmem c ctxc hck hcmem)
      · obtain ⟨hkraw, hknv, hfind⟩ := htpfact e c htpm
        have helev : e ∈ st.frontier := htplevel e c htpm
        obtain ⟨hpkold, hpkdepth⟩ := inv.frontierPar e helev pk hpar
        have hcin : c ∈ tp.map Prod.snd := List.mem_map_of_mem Prod.snd htpm
        refine ⟨?_, ?_, ?_, ?_⟩
        · have hfront : List.find? (fun q => q.1 = c) (st.frontier.map pairOf)
              = some (pairOf e) := by
            rw [List.find?_map]
            have hcomp : ((fun q : String × Option String => decide (q.1 = c)) ∘ pairOf)
                = (fun e2 : FrontierEntry => decide (e2.action.raw = c)) := rfl
            rw [hcomp, hfind]
            rfl
          have hdnone : List.find? (fun q => q.1 = c) done0 = none := by
            rw [List.find?_eq_none]
            intro q hq hqc
            simp at hqc
            exact hknv (hqc ▸ hdone0 q hq)
          have hmain : List.find? (fun q => q.1 = c) st.pushLog = some (pairOf e) := by
            rw [hlog, find?_append_none hdnone, hfront]
          have : pairOf e = (c, some pk) := by
            rw [pairOf, hpar, hkraw]
          rw [← this]
          exact find?_append_some hmain
        · rw [hkeys2]; exact List.mem_append_left _ hpkold
        · rw [hkeys2]; exact List.mem_append_right _ hcin
        · intro ctxp ctxc hp hcmem
          have hpold := holdmem pk ctxp hpkold hp
          obtain ⟨pn, hpn, h1, h2⟩ := hnewmem c ctxc hcin hcmem
          obtain ⟨e2, htpm2, hd2⟩ := hnewdepth pn hpn
          have : e2 = e := htpunique e2 e c (h1 ▸ htpm2) htpm
          rw [← h2, hd2, this]
          exact hpkdepth ctxp hpold
    -- rootDepth
    · intro k hk
      rcases List.mem_append.mp hk with hk | hk
      · obtain ⟨hkin, hkd⟩ := inv.rootDepth k hk
        refine ⟨by rw [hkeys2]; exact List.mem_append_left _ hkin, ?_⟩
        intro ctx hm
        exact hkd ctx (holdmem k ctx hkin hm)
      · obtain ⟨p, hpf, rfl⟩ := List.mem_map.mp hk
        obtain ⟨hptp, hpd⟩ := List.mem_filter.mp hpf
        have hkin : p.2 ∈ tp.map Prod.snd := List.mem_map_of_mem Prod.snd hptp
        refine ⟨by rw [hkeys2]; exact List.mem_append_right _ hkin, ?_⟩
        intro ctx hm
        obtain ⟨pn, hpn, h1, h2⟩ := hnewmem p.2 ctx hkin hm
        obtain ⟨e2, htpm2, hd2⟩ := hnewdepth pn hpn
        have hptp2 : (p.1, p.2) ∈ tp := by
          rcases p with ⟨p1, p2⟩
          exact hptp
        have heq : e2 = p.1 := htpunique e2 p.1 p.2 (h1 ▸ htpm2) hptp2
        rw [← h2, hd2, heq]
        simpa using hpd
    -- frontierPar
    · intro e2 he2 pk hpar2
      obtain ⟨pn, hpn, hparpn, hd, _⟩ := hchild e2 he2
      rw [hparpn] at hpar2
      injection hpar2 with hpk
      subst hpk
      have hkin : pn.key ∈ tp.map Prod.snd := hkeymem pn hpn
      refine ⟨by rw [hkeys2]; exact List.mem_append_right _ hkin, ?_⟩
      intro ctxp hm
      obtain ⟨pn2, hpn2, h1, h2⟩ := hnewmem pn.key ctxp hkin hm
      have : pn2 = pn := nodup_key_unique (fun pn => pn.key) results hresnodup
        pn2 pn hpn2 hpn h1
      rw [← h2, this, hd]

theorem walkInv_init (md : Option Nat) (f : AuditContext → AuditContext)
    (roots : List ActionRef) : WalkInv md f (initState roots) := by
  refine ⟨?_, ?_, ?_, ?_, ?_, ?_, ?_, ?_⟩
  · simp [initState]
  · simp [initState]
  · simp [initState]
  · intro m hm
    constructor
    · intro e he
      simp only [initState] at he
      obtain ⟨a, ha, rfl⟩ := List.mem_map.mp he
      simp
    · simp [initState]
  · refine ⟨[], ?_, by simp⟩
    simp only [initState, List.nil_append, List.map_map]
    rfl
  · intro pk c hc
    simp only [initState, lookupCO, List.find?] at hc
    simp at hc
  · intro k hk
    simp [initState] at hk
  · intro e he pk hpar
    simp only [initState] at he
    obtain ⟨a, ha, rfl⟩ := List.mem_map.mp he
    simp at hpar

theorem walkLoop_inv (md : Option Nat) (f : AuditContext → AuditContext)
    (hact : ∀ ctx, (f ctx).action = ctx.action)
    (hdepth : ∀ ctx, (f ctx).depth = ctx.depth) :
    ∀ (fuel : Nat) (st st2 : WalkState), WalkInv md f st →
      walkLoop f md fuel st = some st2 → WalkInv md f st2 ∧ st2.frontier = [] := by
  intro fuel
  induction fuel with
  | zero =>
    intro st st2 hinv h
    rw [walkLoop] at h
    split at h
    · injection h with h2
      subst h2
      rename_i hemp
      exact ⟨hinv, List.isEmpty_iff.mp hemp⟩
    · cases h
  | succ n ih =>
    intro st st2 hinv h
    rw [walkLoop] at h
    split at h
    · injection h with h2
      subst h2
      rename_i hemp
      exact ⟨hinv, List.isEmpty_iff.mp hemp⟩
    · exact ih _ st2 (walkInv_step md f hact hdepth st hinv) h

theorem walkFinal_inv (md : Option Nat) (f : AuditContext → AuditContext)
    (hact : ∀ ctx, (f ctx).action = ctx.action)
    (hdepth : ∀ ctx, (f ctx).depth = ctx.depth)
    (roots : List ActionRef) (fuel : Nat) (st : WalkState)
    (h : walkFinal f md roots fuel = some st) :
    WalkInv md f st ∧ st.frontier = [] :=
  walkLoop_inv md f hact hdepth fuel _ st (walkInv_init md f roots) h

theorem walkLoop_empty (f : AuditContext → AuditContext) (md : Option Nat) :
    ∀ (fuel : Nat) (st : WalkState), st.frontier = [] →
      walkLoop f md fuel st = some st := by
  intro fuel st h
  cases fuel <;> rw [walkLoop] <;> rw [h] <;> simp

/-! ## Walker support lemmas: the tree builder -/

theorem assocRemove_mem {key : String} :
    ∀ {nodes : List (String × AuditContext)} {ctx rest},
      assocRemove? key nodes = some (ctx, rest) →
      (key, ctx) ∈ nodes ∧ ∀ p ∈ rest, p ∈ nodes := by
  intro nodes
  induction nodes with
  | nil => intro ctx rest h; simp [assocRemove?] at h
  | cons p tail ih =>
    intro ctx rest h
    rw [assocRemove?] at h
    split at h
    · rename_i hp
      injection h with h2
      injection h2 with h3 h4
      subst h3; subst h4
      refine ⟨List.mem_cons.mpr (Or.inl (Prod.ext hp.symm rfl)), ?_⟩
      intro q hq; exact List.mem_cons_of_mem _ hq
    · rcases hmap : assocRemove? key tail with _ | q
      · rw [hmap] at h; cases h
      · rw [hmap] at h
        simp only [Option.map_some'] at h
        injection h with h2
        injection h2 with h3 h4
        subst h3; subst h4
        obtain ⟨hm, hsub⟩ := ih hmap
        refine ⟨List.mem_cons_of_mem _ hm, ?_⟩
        intro r hr
        rcases List.mem_cons.mp hr with h5 | h5
        · subst h5; exact List.mem_cons_self _ _
        · exact List.mem_cons_of_mem _ (hsub r h5)

theorem assocRemove_perm {key : String} :
    ∀ {nodes : List (String × AuditContext)} {ctx rest},
      assocRemove? key nodes = some (ctx, rest) →
      List.Perm (nodes.map Prod.fst) (key :: rest.map Prod.fst) := by
  intro nodes
  induction nodes with
  | nil => intro ctx rest h; simp [assocRemove?] at h
  | cons p tail ih =>
    intro ctx rest h
    rw [assocRemove?] at h
    split at h
    · rename_i hp
      injection h with h2
      injection h2 with h3 h4
      subst h4
      simp only [List.map_cons, hp]
      exact List.Perm.refl _
    · rcases hmap : assocRemove? key tail with _ | q
      · rw [hmap] at h; cases h
      · rw [hmap] at h
        simp only [Option.map_some'] at h
        injection h with h2
        injection h2 with h3 h4
        subst h4
        have hperm := ih hmap
        simp only [List.map_cons]
        exact List.Perm.trans (hperm.cons p.1) (List.Perm.swap key p.1 _)

theorem btaux_nil (nodes : List (String × AuditContext))
    (co : List (String × List String)) :
    (buildTreeAux nodes [] co).val = ([], nodes) := by
  rw [buildTreeAux]

theorem btaux_cons_none {key : String} {nodes : List (String × AuditContext)}
    (restKeys : List String) (co : List (String × List String))
    (h : assocRemove? key nodes = none) :
    (buildTreeAux nodes (key :: restKeys) co).val
      = (buildTreeAux nodes restKeys co).val := by
  rw [buildTreeAux]
  split
  · rfl
  · rename_i ctx2 nodes2 heq; rw [heq] at h; cases h

theorem btaux_cons_some {key : String} {nodes : List (String × AuditContext)}
    {ctx : AuditContext} {nodes1 : List (String × AuditContext)}
    (restKeys : List String) (co : List (String × List String))
    (h : assocRemove? key nodes = some (ctx, nodes1)) :
    (buildTreeAux nodes (key :: restKeys) co).val
      = (AuditNode.mk (actionEntryFrom ctx)
            (buildTreeAux nodes1 (lookupCO co key) co).val.1
          :: (buildTreeAux (buildTreeAux nodes1 (lookupCO co key) co).val.2
                restKeys co).val.1,
         (buildTreeAux (buildTreeAux nodes1 (lookupCO co key) co).val.2
            restKeys co).val.2) := by
  rw [buildTreeAux]
  split
  · rename_i heq; rw [heq] at h; cases h
  · rename_i ctx2 nodes2 heq
    rw [heq] at h
    injection h with h2
    injection h2 with h3 h4
    subst h3; subst h4
    rfl

theorem btaux_nil_fst (nodes : List (String × AuditContext))
    (co : List (String × List String)) :
    (buildTreeAux nodes [] co).val.1 = [] := by
  rw [btaux_nil]

theorem btaux_nil_snd (nodes : List (String × AuditContext))
    (co : List (String × List String)) :
    (buildTreeAux nodes [] co).val.2 = nodes := by
  rw [btaux_nil]

theorem btaux_cons_some_fst {key : String} {nodes : List (String × AuditContext)}
    {ctx : AuditContext} {nodes1 : List (String × AuditContext)}
    (restKeys : List String) (co : List (String × List String))
    (h : assocRemove? key nodes = some (ctx, nodes1)) :
    (buildTreeAux nodes (key :: restKeys) co).val.1
      = AuditNode.mk (actionEntryFrom ctx)
            (buildTreeAux nodes1 (lookupCO co key) co).val.1
        :: (buildTreeAux (buildTreeAux nodes1 (lookupCO co key) co).val.2
              restKeys co).val.1 := by
  rw [btaux_cons_some restKeys co h]

theorem btaux_cons_some_snd {key : String} {nodes : List (String × AuditContext)}
    {ctx : AuditContext} {nodes1 : List (String × AuditContext)}
    (restKeys : List String) (co : List (String × List String))
    (h : assocRemove? key nodes = some (ctx, nodes1)) :
    (buildTreeAux nodes (key :: restKeys) co).val.2
      = (buildTreeAux (buildTreeAux nodes1 (lookupCO co key) co).val.2
           restKeys co).val.2 := by
  rw [btaux_cons_some restKeys co h]

theorem btaux_mem :
    ∀ (nodes : List (String × AuditContext)) (keys : List String)
      (co : List (String × List String)),
      ∀ p ∈ (buildTreeAux nodes keys co).val.2, p ∈ nodes := by
  intro nodes keys co
  induction nodes, keys, co using buildTreeAux.induct with
  | case1 nodes co =>
    rw [btaux_nil_snd]; intro p hp; exact hp
  | case2 nodes co key restKeys h ih =>
    rw [btaux_cons_none restKeys co h]
    exact ih
  | case3 nodes co key restKeys ctx nodes1 h hlt c ih1 ih2 ih3 =>
    rw [btaux_cons_some_snd restKeys co h]
    intro p hp
    exact (assocRemove_mem h).2 p (ih1 p (ih3 p hp))

theorem btaux_top :
    ∀ (nodes : List (String × AuditContext)) (keys : List String)
      (co : List (String × List String)),
      (∀ p ∈ nodes, p.2.action.raw = p.1) →
      ∀ n ∈ (buildTreeAux nodes keys co).val.1, AuditNode.entryRaw n ∈ keys := by
  intro nodes keys co
  induction nodes, keys, co using buildTreeAux.induct with
  | case1 nodes co =>
    intro _ n hn
    rw [btaux_nil_fst] at hn
    cases hn
  | case2 nodes co key restKeys h ih =>
    intro hraw n hn
    rw [btaux_cons_none restKeys co h] at hn
    exact List.mem_cons_of_mem _ (ih hraw n hn)
  | case3 nodes co key restKeys ctx nodes1 h hlt c ih1 ih2 ih3 =>
    intro hraw n hn
    rw [btaux_cons_some_fst restKeys co h] at hn
    have hraw1 : ∀ p ∈ nodes1, p.2.action.raw = p.1 :=
      fun p hp => hraw p ((assocRemove_mem h).2 p hp)
    rcases List.mem_cons.mp hn with rfl | hn2
    · have hk : ctx.action.raw = key := hraw (key, ctx) (assocRemove_mem h).1
      show ctx.action.raw ∈ key :: restKeys
      rw [hk]; exact List.mem_cons_self _ _
    · have hrawc : ∀ p ∈ (buildTreeAux nodes1 (lookupCO co key) co).val.2,
          p.2.action.raw = p.1 :=
        fun p hp => hraw1 p (btaux_mem nodes1 (lookupCO co key) co p hp)
      exact List.mem_cons_of_mem _ (ih3 hrawc n hn2)

theorem btaux_raws :
    ∀ (nodes : List (String × AuditContext)) (keys : List String)
      (co : List (String × List String)),
      (∀ p ∈ nodes, p.2.action.raw = p.1) →
      List.Perm
        (forestRaws (buildTreeAux nodes keys co).val.1
          ++ (buildTreeAux nodes keys co).val.2.map Prod.fst)
        (nodes.map Prod.fst) := by
  intro nodes keys co
  induction nodes, keys, co using buildTreeAux.induct with
  | case1 nodes co =>
    intro _
    rw [btaux_nil_fst, btaux_nil_snd]
    simp only [forestRaws, List.nil_append]
    exact List.Perm.refl _
  | case2 nodes co key restKeys h ih =>
    intro hraw
    rw [btaux_cons_none restKeys co h]
    exact ih hraw
  | case3 nodes co key restKeys ctx nodes1 h hlt c ih1 ih2 ih3 =>
    intro hraw
    have hraw1 : ∀ p ∈ nodes1, p.2.action.raw = p.1 :=
      fun p hp => hraw p ((assocRemove_mem h).2 p hp)
    have hrawc : ∀ p ∈ (buildTreeAux nodes1 (lookupCO co key) co).val.2,
        p.2.action.raw = p.1 :=
      fun p hp => hraw1 p (btaux_mem nodes1 (lookupCO co key) co p hp)
    have hp1 := ih1 hraw1
    have hp2 := ih3 hrawc
    rw [btaux_cons_some_fst restKeys co h, btaux_cons_some_snd restKeys co h]
    simp only [forestRaws]
    have hk : (actionEntryFrom ctx).action.raw = key :=
      hraw (key, ctx) (assocRemove_mem h).1
    rw [hk, List.cons_append]
    refine List.Perm.trans ?_ (assocRemove_perm h).symm
    refine List.Perm.cons key ?_
    refine List.Perm.trans ?_ hp1
    rw [List.append_assoc]
    exact List.Perm.append_left _ hp2

theorem btaux_edges :
    ∀ (nodes : List (String × AuditContext)) (keys : List String)
      (co : List (String × List String)),
      (∀ p ∈ nodes, p.2.action.raw = p.1) →
      ∀ pr cr, (pr, cr) ∈ forestEdges (buildTreeAux nodes keys co).val.1 →
        cr ∈ lookupCO co pr := by
  intro nodes keys co
  induction nodes, keys, co using buildTreeAux.induct with
  | case1 nodes co =>
    intro _ pr cr hmem
    rw [btaux_nil_fst] at hmem
    simp [forestEdges] at hmem
  | case2 nodes co key restKeys h ih =>
    intro hraw pr cr hmem
    rw [btaux_cons_none restKeys co h] at hmem
    exact ih hraw pr cr hmem
  | case3 nodes co key restKeys ctx nodes1 h hlt c ih1 ih2 ih3 =>
    intro hraw pr cr hmem
    rw [btaux_cons_some_fst restKeys co h] at hmem
    have hraw1 : ∀ p ∈ nodes1, p.2.action.raw = p.1 :=
      fun p hp => hraw p ((assocRemove_mem h).2 p hp)
    have hrawc : ∀ p ∈ (buildTreeAux nodes1 (lookupCO co key) co).val.2,
        p.2.action.raw = p.1 :=
      fun p hp => hraw1 p (btaux_mem nodes1 (lookupCO co key) co p hp)
    simp only [forestEdges] at hmem
    rcases List.mem_append.mp hmem with hm | hm
    · obtain ⟨cn, hc, heq2⟩ := List.mem_map.mp hm
      injection heq2 with h5 h6
      subst h5; subst h6
      have hk : (actionEntryFrom ctx).action.raw = key :=
        hraw (key, ctx) (assocRemove_mem h).1
      rw [hk]
      exact btaux_top nodes1 (lookupCO co key) co hraw1 cn hc
    · rcases List.mem_append.mp hm with hm2 | hm2
      · exact ih1 hraw1 pr cr hm2
      · exact ih3 hrawc pr cr hm2

theorem btaux_flat :
    ∀ (nodes : List (String × AuditContext)) (keys : List String)
      (co : List (String × List String))
      (N : List (String × AuditContext)) (Q : String → Nat → Prop) (d : Nat),
      (∀ p ∈ nodes, p ∈ N) →
      (∀ k ∈ keys, Q k d) →
      (∀ k j c, Q k j → c ∈ lookupCO co k → Q c (j + 1)) →
      ∀ e j, (e, j) ∈ forestFlat d (buildTreeAux nodes keys co).val.1 →
        ∃ k ctx, (k, ctx) ∈ N ∧ e = actionEntryFrom ctx ∧ Q k j := by
  intro nodes keys co
  induction nodes, keys, co using buildTreeAux.induct with
  | case1 nodes co =>
    intro N Q d hsub hkeys hco e j hmem
    rw [btaux_nil_fst] at hmem
    simp [forestFlat] at hmem
  | case2 nodes co key restKeys h ih =>
    intro N Q d hsub hkeys hco e j hmem
    rw [btaux_cons_none restKeys co h] at hmem
    exact ih N Q d hsub (fun k hk => hkeys k (List.mem_cons_of_mem _ hk)) hco e j hmem
  | case3 nodes co key restKeys ctx nodes1 h hlt c ih1 ih2 ih3 =>
    intro N Q d hsub hkeys hco e j hmem
    rw [btaux_cons_some_fst restKeys co h] at hmem
    simp only [forestFlat] at hmem
    have hsub1 : ∀ p ∈ nodes1, p ∈ N :=
      fun p hp => hsub p ((assocRemove_mem h).2 p hp)
    rcases List.mem_cons.mp hmem with heq2 | hmem2
    · injection heq2 with h5 h6
      subst h5; subst h6
      exact ⟨key, ctx, hsub (key, ctx) (assocRemove_mem h).1, rfl,
        hkeys key (List.mem_cons_self _ _)⟩
    · rcases List.mem_append.mp hmem2 with hm | hm
      · refine ih1 N Q (d + 1) hsub1 ?_ hco e j hm
        intro k hk
        exact hco key d k (hkeys key (List.mem_cons_self _ _)) hk
      · refine ih3 N Q d ?_ (fun k hk => hkeys k (List.mem_cons_of_mem _ hk)) hco e j hm
        intro p hp
        exact hsub1 p (btaux_mem nodes1 (lookupCO co key) co p hp)

theorem btaux_leaf :
    ∀ (nodes : List (String × AuditContext)),
      (buildTreeAux nodes (nodes.map Prod.fst) []).val.1
        = nodes.map (fun p => AuditNode.mk (actionEntryFrom p.2) []) := by
  intro nodes
  induction nodes with
  | nil => rw [List.map_nil, btaux_nil_fst, List.map_nil]
  | cons p rest ih =>
    have hrm : assocRemove? p.1 (p :: rest) = some (p.2, rest) := by
      rw [assocRemove?, if_pos rfl]
    have hl : lookupCO ([] : List (String × List String)) p.1 = [] := rfl
    rw [List.map_cons, btaux_cons_some_fst (rest.map Prod.fst) [] hrm, hl,
      btaux_nil_fst, btaux_nil_snd, ih, List.map_cons]

theorem recordKeys_co_none :
    ∀ (tp : List (FrontierEntry × String)) (rk : List String)
      (co : List (String × List String)),
      (∀ p ∈ tp, p.1.parent = none) → (recordKeys rk co tp).2 = co := by
  intro tp
  induction tp with
  | nil => intro rk co _; rfl
  | cons p rest ih =>
    intro rk co hp
    have hpar : p.1.parent = none := hp p (List.mem_cons_self _ _)
    rcases p with ⟨e, key⟩
    rw [recordKeys]
    simp only at hpar
    rw [hpar]
    exact ih _ co (fun q hq => hp q (List.mem_cons_of_mem _ hq))

theorem initState_frontier_facts (roots : List ActionRef) :
    ∀ e ∈ (initState roots).frontier, e.depth = 0 ∧ e.parent = none := by
  intro e he
  simp only [initState] at he
  obtain ⟨a, ha, rfl⟩ := List.mem_map.mp he
  exact ⟨rfl, rfl⟩

theorem initState_frontier_raws (roots : List ActionRef) :
    (initState roots).frontier.map (fun e => e.action.raw)
      = roots.map (fun a => a.raw) := by
  simp only [initState, List.map_map]
  rfl

theorem childEntriesOf_zero (pn : ProcessedNode) :
    childEntriesOf (some 0) pn = [] := by
  rw [childEntriesOf, if_neg]
  simp [shouldExpandAt]

theorem flatMap_childEntriesOf_zero :
    ∀ (rs : List ProcessedNode), rs.flatMap (childEntriesOf (some 0)) = [] := by
  intro rs
  induction rs with
  | nil => rfl
  | cons pn rest ih => rw [List.flatMap_cons, childEntriesOf_zero, ih]; rfl

theorem walkStep_zero (f : AuditContext → AuditContext) (roots : List ActionRef) :
    (walkStep f (some 0) (initState roots)).frontier = []
    ∧ (walkStep f (some 0) (initState roots)).allNodes
        = (processLevel f (filterLevel [] (initState roots).frontier).2).map
            (fun pn => (pn.key, pn.context))
    ∧ (walkStep f (some 0) (initState roots)).rootKeys
        = (filterLevel [] (initState roots).frontier).2.map Prod.snd
    ∧ (walkStep f (some 0) (initState roots)).childrenOrder = [] := by
  have hv : (initState roots).visited = [] := rfl
  have hd0 : ∀ p ∈ (filterLevel [] (initState roots).frontier).2, p.1.depth = 0 := by
    intro p hp
    exact (initState_frontier_facts roots p.1
      (filterLevel_mem_level (initState roots).frontier [] p.1 p.2 hp)).1
  have hpar : ∀ p ∈ (filterLevel [] (initState roots).frontier).2,
      p.1.parent = none := by
    intro p hp
    exact (initState_frontier_facts roots p.1
      (filterLevel_mem_level (initState roots).frontier [] p.1 p.2 hp)).2
  simp only [walkStep]
  rw [hv]
  split
  · rename_i hemp
    have h2 : (filterLevel [] (initState roots).frontier).2 = [] :=
      List.isEmpty_iff.mp hemp
    refine ⟨rfl, ?_, ?_, rfl⟩
    · rw [h2]; rfl
    · rw [h2]; rfl
  · rename_i hne
    have hcr := collectResults_spec (some 0) (initState roots).allNodes
      (processLevel f (filterLevel [] (initState roots).frontier).2)
    have ha : (initState roots).allNodes = [] := rfl
    have hr0 : (initState roots).rootKeys = [] := rfl
    have hfilter : (filterLevel [] (initState roots).frontier).2.filter
        (fun p => p.1.depth = 0) = (filterLevel [] (initState roots).frontier).2 :=
      List.filter_eq_self.mpr (fun p hp => decide_eq_true (hd0 p hp))
    refine ⟨?_, ?_, ?_, ?_⟩
    · show (collectResults (some 0) (initState roots).allNodes
          (processLevel f (filterLevel [] (initState roots).frontier).2)).2 = []
      rw [hcr.2]
      exact flatMap_childEntriesOf_zero _
    · show (collectResults (some 0) (initState roots).allNodes
          (processLevel f (filterLevel [] (initState roots).frontier).2)).1 = _
      rw [hcr.1, ha, List.nil_append]
    · show (recordKeys (initState roots).rootKeys (initState roots).childrenOrder
          (filterLevel [] (initState roots).frontier).2).1 = _
      rw [recordKeys_rootKeys, hr0, hfilter, List.nil_append]
    · show (recordKeys (initState roots).rootKeys (initState roots).childrenOrder
          (filterLevel [] (initState roots).frontier).2).2 = []
      rw [recordKeys_co_none _ _ _ hpar]
      rfl

theorem forestRaws_leaves (nodes : List (String × AuditContext)) :
    forestRaws (nodes.map (fun p => AuditNode.mk (actionEntryFrom p.2) []))
      = nodes.map (fun p => p.2.action.raw) := by
  induction nodes with
  | nil => simp [forestRaws]
  | cons p rest ih =>
    simp only [List.map_cons, forestRaws, List.nil_append, ih]
    rfl

theorem children_leaves (nodes : List (String × AuditContext)) :
    ∀ n ∈ nodes.map (fun p => AuditNode.mk (actionEntryFrom p.2) []),
      AuditNode.children n = [] := by
  intro n hn
  obtain ⟨p, hp, rfl⟩ := List.mem_map.mp hn
  rfl

theorem walkFinal_zero_tree (f : AuditContext → AuditContext)
    (hact : ∀ ctx, (f ctx).action = ctx.action)
    (roots : List ActionRef) (fuel : Nat) (st : WalkState)
    (h : walkFinal f (some 0) roots fuel = some st) :
    forestRaws (treeOf st) = firstDedup (roots.map (fun a => a.raw))
    ∧ ∀ n ∈ treeOf st, AuditNode.children n = [] := by
  rw [walkFinal] at h
  have hempcase : (initState roots).frontier.isEmpty = true →
      initState roots = st →
      forestRaws (treeOf st) = firstDedup (roots.map (fun a => a.raw))
      ∧ ∀ n ∈ treeOf st, AuditNode.children n = [] := by
    intro hemp hst
    subst hst
    have hfr : (initState roots).frontier = [] := List.isEmpty_iff.mp hemp
    have hroots : roots = [] := by
      simp only [initState] at hfr
      exact List.map_eq_nil_iff.mp hfr
    have htree : treeOf (initState roots) = [] := by
      show (buildTreeAux [] [] []).val.1 = []
      rw [btaux_nil_fst]
    refine ⟨?_, ?_⟩
    · rw [htree, hroots]
      simp [forestRaws, firstDedup, firstDedupAux]
    · intro n hn
      rw [htree] at hn
      cases hn
  cases fuel with
  | zero =>
    rw [walkLoop] at h
    split at h
    · rename_i hemp
      injection h with h2
      exact hempcase hemp h2
    · cases h
  | succ n =>
    rw [walkLoop] at h
    split at h
    · rename_i hemp
      injection h with h2
      exact hempcase hemp h2
    · obtain ⟨hfr, hAll, hRoot, hCO⟩ := walkStep_zero f roots
      rw [walkLoop_empty f (some 0) n _ hfr] at h
      injection h with h2
      subst h2
      have hkeys2 : ((processLevel f (filterLevel [] (initState roots).frontier).2).map
            (fun pn => (pn.key, pn.context))).map Prod.fst
          = (filterLevel [] (initState roots).frontier).2.map Prod.snd := by
        rw [List.map_map]
        exact processLevel_keys f _
      have htree : treeOf (walkStep f (some 0) (initState roots))
          = ((processLevel f (filterLevel [] (initState roots).frontier).2).map
              (fun pn => (pn.key, pn.context))).map
              (fun p => AuditNode.mk (actionEntryFrom p.2) []) := by
        show (buildTreeAux (walkStep f (some 0) (initState roots)).allNodes
            (walkStep f (some 0) (initState roots)).rootKeys
            (walkStep f (some 0) (initState roots)).childrenOrder).val.1 = _
        rw [hAll, hRoot, hCO, ← hkeys2, btaux_leaf]
      refine ⟨?_, ?_⟩
      · rw [htree, forestRaws_leaves]
        have hpt : ∀ pn ∈ processLevel f (filterLevel [] (initState roots).frontier).2,
            pn.context.action.raw = pn.key := by
          intro pn hpn
          obtain ⟨i, e, hin, hctx⟩ := processLevel_mem f _ pn hpn
          rw [hctx, hact]
          exact ((filterLevel_toProcess (initState roots).frontier [] e pn.key hin).1).symm
        have e1 : ((processLevel f (filterLevel [] (initState roots).frontier).2).map
              (fun pn => (pn.key, pn.context))).map (fun p => p.2.action.raw)
            = (processLevel f (filterLevel [] (initState roots).frontier).2).map
              (fun pn => pn.context.action.raw) := by
          rw [List.map_map]
          rfl
        rw [e1, List.map_congr_left hpt, processLevel_keys, filterLevel_keys,
          initState_frontier_raws]
        rfl
      · rw [htree]
        exact children_leaves _

/-- **C9.** `format_range_events` maps an event list to constraint fragments
joined by `", "` in event order — `">= v"` for `introduced` values other than
`"0"`, `"< v"` for `fixed`, `"<= v"` for `last_affected` — and in particular
the three literal equations of the specification hold. -/
theorem osv_format_range_events_spec :
    (∀ events : List OsvEvent,
        format_range_events events =
          String.intercalate ", " (events.flatMap specRangeFragments))
    ∧ format_range_events
        [⟨some "0", none, none⟩, ⟨none, some "7.0.7", none⟩] = "< 7.0.7"
    ∧ format_range_events
        [⟨some "2.0.0", none, none⟩, ⟨none, some "3.1.0", none⟩] = ">= 2.0.0, < 3.1.0"
    ∧ format_range_events
        [⟨some "0", none, none⟩, ⟨none, none, some "5.0.0"⟩] = "<= 5.0.0" := by
  refine ⟨fun events => ?_, by decide, by decide, by decide⟩
  rw [format_range_events, foldl_rangeEventStep]
  rfl

/-- **C5.** `deduplicate_advisories` is idempotent, absorbs doubling, and for
advisories linked by an alias keeps only the first of the pair. -/
theorem dedup_algebra :
    (∀ xs, deduplicate_advisories (deduplicate_advisories xs) = deduplicate_advisories xs)
    ∧ (∀ xs, deduplicate_advisories (xs ++ xs) = deduplicate_advisories xs)
    ∧ (∀ a b : Advisory, (a.id ∈ b.aliases ∨ b.id ∈ a.aliases) →
        deduplicate_advisories [a, b] = [a]) := by
  refine ⟨?_, ?_, ?_⟩
  · intro xs
    exact dedupAux_dedupAux xs []
  · intro xs
    rw [deduplicate_advisories, deduplicate_advisories, dedupAux_append,
      dedupAux_nil_of_blocked xs _ (blocked_seenAfter xs []), List.append_nil]
  · intro a b h
    have ha : blockedBy [] a = false := by
      simp [blockedBy, seenContains]
    have hb : blockedBy (a.id :: a.aliases) b = true := by
      rw [blockedBy_iff]
      rcases h with h | h
      · exact Or.inr ⟨a.id, h, by simp⟩
      · exact Or.inl (by simp [h])
    simp [deduplicate_advisories, dedupAux, ha, hb]

/-- **C5 witness.** The alias-linked pair of the specification's scenario 4
deduplicates to its first element. -/
theorem dedup_algebra_witness :
    deduplicate_advisories [advGhsa, advCve] = [advGhsa] :=
  dedup_algebra.2.2 advGhsa advCve (by decide)

/-- **C8 counterexample.** The GHSA response mapping copies the severity
verbatim: a record with severity `"HIGH"` produces an advisory whose severity
is `"HIGH"`, which is not lowercase — refuting the claim that every
provider-produced advisory has a lowercase severity. -/
theorem ghsa_severity_not_lowercased :
    parse_advisories [ghsaUppercaseItem] = [ghsaAdvisoryOf ghsaUppercaseItem]
    ∧ (ghsaAdvisoryOf ghsaUppercaseItem).severity = "HIGH"
    ∧ isLowercaseStr (ghsaAdvisoryOf ghsaUppercaseItem).severity = false := by
  decide

/-- **C8 (amended).** The OSV mapping always produces a lowercase severity,
`"unknown"` when the record carries none; the GHSA mapping copies the
record's severity verbatim, `"unknown"` when absent — so its output is
lowercase only when the source record's severity is. -/
theorem provider_severity_spec :
    (∀ vuln : OsvVuln, isLowercaseStr (osvAdvisoryOf vuln).severity = true)
    ∧ (∀ vuln : OsvVuln,
        vuln.database_specific.bind OsvDatabaseSpecific.severity = none →
        (osvAdvisoryOf vuln).severity = "unknown")
    ∧ (∀ item : GhsaAdvisoryResponse,
        (ghsaAdvisoryOf item).severity = item.severity.getD "unknown") := by
  refine ⟨?_, ?_, fun item => rfl⟩
  · intro vuln
    show isLowercaseStr (osvAdvisoryOf vuln).severity = true
    rcases hdb : vuln.database_specific with _ | db
    · simp [osvAdvisoryOf, hdb]
      decide
    · rcases hsev : db.severity with _ | s
      · simp [osvAdvisoryOf, hdb, hsev]
        decide
      · simp [osvAdvisoryOf, hdb, hsev]
        exact isLowercaseStr_toLowercase s
  · intro vuln h
    rcases hdb : vuln.database_specific with _ | db
    · simp [osvAdvisoryOf, hdb]
    · rcases hsev : db.severity with _ | s
      · simp [osvAdvisoryOf, hdb, hsev]
      · rw [hdb] at h
        simp [Option.bind] at h
        rw [hsev] at h
        exact absurd h (by simp)

/-- **C8 witness.** An OSV record with no `database_specific` maps to
severity `"unknown"`, which is lowercase. -/
theorem provider_severity_spec_witness :
    (osvAdvisoryOf ⟨"OSV-1", [], "s", [], [], none⟩).severity = "unknown" :=
  provider_severity_spec.2.1 ⟨"OSV-1", [], "s", [], [], none⟩ rfl

theorem compositeExpandRun_snd
    (fetchF : String → String → String → String → Except String (Option String))
    (parseYamlF : String → Except String ActionYaml) (ctx : AuditContext) :
    (compositeExpandRun fetchF parseYamlF ctx).2 =
      (tryManifests fetchF ctx.action.owner ctx.action.repo ctx.action.git_ref).2 := by
  unfold compositeExpandRun
  rcases htm : tryManifests fetchF ctx.action.owner ctx.action.repo ctx.action.git_ref
    with ⟨res, reqs⟩
  rcases res with e | o
  · simp
  · rcases o with _ | c
    · simp
    · rcases hp : parseYamlF c with e | ay
      · simp [hp]
      · rcases hca : parse_composite_action ay with _ | children <;> simp [hp, hca]

theorem tryManifests_snd
    (fetchF : String → String → String → String → Except String (Option String))
    (owner repo git_ref : String) :
    (tryManifests fetchF owner repo git_ref).2 = ["action.yml"]
      ∨ (tryManifests fetchF owner repo git_ref).2 = ["action.yml", "action.yaml"] := by
  unfold tryManifests
  rcases fetchF owner repo git_ref "action.yml" with e | o
  · exact Or.inl rfl
  · rcases o with _ | c
    · rcases fetchF owner repo git_ref "action.yaml" with e | o
      · exact Or.inr rfl
      · exact Or.inr rfl
    · exact Or.inl rfl

/-- **C10.** For every action — in particular one whose `path` is set —
`CompositeExpandStage` probes exactly `"action.yml"` and then possibly
`"action.yaml"` at the repository root: the fetched paths never involve the
action's sub-path, and changing the sub-path changes neither the probes; when
neither manifest exists the action is left as a leaf. -/
theorem composite_probes_root_manifests :
    ∀ (fetchF : String → String → String → String → Except String (Option String))
      (parseYamlF : String → Except String ActionYaml) (ctx : AuditContext),
      ((compositeExpandRun fetchF parseYamlF ctx).2 = ["action.yml"]
        ∨ (compositeExpandRun fetchF parseYamlF ctx).2 = ["action.yml", "action.yaml"])
      ∧ (∀ p : Option String,
          (compositeExpandRun fetchF parseYamlF
              { ctx with action := { ctx.action with path := p } }).2
            = (compositeExpandRun fetchF parseYamlF ctx).2)
      ∧ (fetchF ctx.action.owner ctx.action.repo ctx.action.git_ref "action.yml"
            = Except.ok none →
         fetchF ctx.action.owner ctx.action.repo ctx.action.git_ref "action.yaml"
            = Except.ok none →
         (compositeExpandRun fetchF parseYamlF ctx).1 = Except.ok ctx) := by
  intro fetchF parseYamlF ctx
  refine ⟨?_, ?_, ?_⟩
  · rw [compositeExpandRun_snd]
    exact tryManifests_snd fetchF _ _ _
  · intro p
    rw [compositeExpandRun_snd, compositeExpandRun_snd]
  · intro h1 h2
    simp [compositeExpandRun, tryManifests, h1, h2]

/-- **C10 witness.** With both root manifests absent, a sub-directory action
is treated as a leaf. -/
theorem composite_probes_root_manifests_witness :
    (compositeExpandRun (fun _ _ _ _ => Except.ok none)
        (fun _ => Except.error "no yaml") sampleCtx).1 = Except.ok sampleCtx :=
  (composite_probes_root_manifests (fun _ _ _ _ => Except.ok none)
    (fun _ => Except.error "no yaml") sampleCtx).2.2 rfl rfl

/-- **C3 counterexample.** A recoverable network failure (the raw-content
fetch of `action.yml` failing with an HTTP 500) makes
`CompositeExpandStage::run` return a fatal error — the `?` operator
propagates it — instead of recording it on `ctx.errors` and succeeding. -/
theorem composite_fatal_on_network_error :
    (compositeExpandRun (fun _ _ _ _ => Except.error "HTTP 500")
        (fun _ => Except.error "unreachable") sampleCtx).1 = Except.error "HTTP 500"
    ∧ sampleCtx.errors = [] :=
  ⟨rfl, rfl⟩

/-- **C3 (amended).** `RefResolveStage`, `WorkflowExpandStage` and
`AdvisoryStage` convert recoverable failures (resolution errors, remote
fetch/parse failures, provider failures) into `ctx.errors` entries and return
success; `CompositeExpandStage`, however, returns a fatal error whenever the
raw-content fetch fails or the fetched manifest fails YAML parsing. -/
theorem stage_error_contract :
    (∀ resolveF ctx e, resolveF ctx.action = Except.error e →
        refResolveRun resolveF ctx = Except.ok (recordError ctx "RefResolve" e))
    ∧ (∀ resolveF ctx sha, resolveF ctx.action = Except.ok sha →
        refResolveRun resolveF ctx = Except.ok { ctx with resolved_ref := some sha })
    ∧ (∀ fetchF parseF ctx, isOkE (workflowExpandRun fetchF parseF ctx) = true)
    ∧ (∀ fetchF parseF ctx p e, ctx.action.path = some p →
        containsSub ".github/workflows/".data p.data = true →
        fetchF p = Except.error e →
        containsSub "not found".data e.data = false →
        workflowExpandRun fetchF parseF ctx = Except.ok (recordError ctx "WorkflowExpand" e))
    ∧ (∀ results ctx, isOkE (advisoryStageRun results ctx) = true)
    ∧ (∀ fetchF parseYamlF ctx e,
        fetchF ctx.action.owner ctx.action.repo ctx.action.git_ref "action.yml"
          = Except.error e →
        (compositeExpandRun fetchF parseYamlF ctx).1 = Except.error e)
    ∧ (∀ fetchF parseYamlF ctx c e,
        fetchF ctx.action.owner ctx.action.repo ctx.action.git_ref "action.yml"
          = Except.ok (some c) →
        parseYamlF c = Except.error e →
        (compositeExpandRun fetchF parseYamlF ctx).1 = Except.error e) := by
  refine ⟨?_, ?_, ?_, ?_, ?_, ?_, ?_⟩
  · intro resolveF ctx e h
    simp [refResolveRun, h]
  · intro resolveF ctx sha h
    simp [refResolveRun, h]
  · intro fetchF parseF ctx
    unfold workflowExpandRun
    split
    · rfl
    · split
      · split <;> first
          | rfl
          | (split <;> rfl)
      · rfl
  · intro fetchF parseF ctx p e hp hcont hf hnf
    unfold workflowExpandRun
    rw [hp]
    simp [hcont, hf, hnf]
  · intro results ctx
    rfl
  · intro fetchF parseYamlF ctx e h
    simp [compositeExpandRun, tryManifests, h]
  · intro fetchF parseYamlF ctx c e h1 h2
    simp [compositeExpandRun, tryManifests, h1, h2]

/-- **C3 witness.** A failing ref resolution is recorded on `ctx.errors` and
the stage still succeeds. -/
theorem stage_error_contract_witness :
    refResolveRun (fun _ => Except.error "ref not found") sampleCtx
      = Except.ok (recordError sampleCtx "RefResolve" "ref not found") :=
  stage_error_contract.1 (fun _ => Except.error "ref not found") sampleCtx
    "ref not found" rfl

/-- **C4.** `Pipeline::run_one` runs the stages sequentially in construction
order on the same context; a successful stage's mutation is kept as is, and a
failing stage's (partial) mutation is kept with a `{stage, message}` entry
appended to `ctx.errors` — after which the remaining stages still run. -/
theorem pipeline_run_one_spec :
    (∀ pre s post ctx,
        runOne (pre ++ s :: post) ctx = runOne post (runStage s (runOne pre ctx)))
    ∧ (∀ s ctx c2, s.run ctx = (Except.ok (), c2) → runStage s ctx = c2)
    ∧ (∀ s ctx e c2, s.run ctx = (Except.error e, c2) →
        runStage s ctx
          = { c2 with errors := c2.errors ++ [{ stage := s.name, message := e }] }) := by
  refine ⟨?_, ?_, ?_⟩
  · intro pre s post ctx
    simp [runOne, List.foldl_append]
  · intro s ctx c2 h
    simp [runStage, h]
  · intro s ctx e c2 h
    simp [runStage, h, recordError]

/-- **C4 witness.** A stage failing with `"boom"` leaves the context intact
except for the appended error entry. -/
theorem pipeline_run_one_spec_witness :
    runStage boomStage sampleCtx
      = { sampleCtx with
          errors := sampleCtx.errors ++ [{ stage := "bad", message := "boom" }] } :=
  pipeline_run_one_spec.2.2 boomStage sampleCtx "boom" sampleCtx rfl

/-- **C6 counterexample.** The empty selection spec parses to the `None`
selection, which selects no position at all — whereas `"all"` selects every
position.  The claim's "empty spec ≡ all" is therefore false. -/
theorem scan_selection_empty_spec_is_none :
    ScanSelection.from_str "" = Except.ok ScanSelection.None
    ∧ ScanSelection.should_scan ScanSelection.None 0 = false
    ∧ ScanSelection.from_str "all" = Except.ok ScanSelection.All
    ∧ ScanSelection.should_scan ScanSelection.All 0 = true :=
  ⟨rfl, rfl, rfl, rfl⟩

/-- **C6 (amended).** Selection-spec parsing: `"all"` (case-insensitive,
after trimming) selects every position; a parse to `Indices` selects exactly
the 1-indexed positions covered by the comma-separated items `N` / `N-M`;
any zero item or range bound and any inverted range is an error; and the
empty spec parses to the `None` selection, which selects no position
(not, as the original claim said, to `"all"`). -/
theorem scan_selection_spec :
    (∀ s : String,
        ScanSelection.from_str s = Except.ok ScanSelection.All ↔
          eqIgnoreAsciiCase (trimChars s.data) "all".data = true)
    ∧ (∀ i, ScanSelection.should_scan ScanSelection.All i = true)
    ∧ (∀ s indices,
        ScanSelection.from_str s = Except.ok (ScanSelection.Indices indices) →
        ∀ i, ScanSelection.should_scan (ScanSelection.Indices indices) i = true ↔
          ∃ part ∈ splitChar ',' (trimChars s.data),
            specItemCovers part (i + 1) = true)
    ∧ (∀ (acc : List Nat) part a b n m,
        splitOnceChar '-' (trimChars part) = some (a, b) →
        parseUsize (trimChars a) = some n →
        parseUsize (trimChars b) = some m →
        (n = 0 ∨ m = 0 ∨ n > m) →
        isErrE (processPart acc part) = true)
    ∧ (∀ (acc : List Nat) part,
        splitOnceChar '-' (trimChars part) = none →
        parseUsize (trimChars part) = some 0 →
        isErrE (processPart acc part) = true)
    ∧ (∀ s part, part ∈ splitChar ',' (trimChars s.data) →
        eqIgnoreAsciiCase (trimChars s.data) "all".data = false →
        eqIgnoreAsciiCase (trimChars s.data) "none".data = false →
        (∀ a : List Nat, isErrE (processPart a part) = true) →
        isErrE (ScanSelection.from_str s) = true)
    ∧ (ScanSelection.from_str "" = Except.ok ScanSelection.None
        ∧ ∀ i, ScanSelection.should_scan ScanSelection.None i = false) := by
  refine ⟨?_, fun i => rfl, ?_, ?_, ?_, ?_, rfl, fun i => rfl⟩
  · intro s
    constructor
    · intro h
      simp only [ScanSelection.from_str] at h
      split at h
      · rename_i hall
        exact hall
      · split at h
        · cases h
        · split at h
          · cases h
          · split at h
            · cases h
            · cases h
    · intro h
      simp only [ScanSelection.from_str, h, if_true]
  · intro s indices h i
    have hacc := from_str_indices s indices h
    have hchar := accumulateParts_ok_mem _ [] indices hacc (i + 1)
    simp only [List.not_mem_nil, or_false] at hchar
    rw [ScanSelection.should_scan, seenContainsNat_iff, hchar]
  · intro acc part a b n m hsp hn hm hbad
    have hne : (trimChars part).isEmpty = false := by
      rcases he : trimChars part with _ | ⟨c, cs⟩
      · rw [he] at hsp; simp [splitOnceChar] at hsp
      · rfl
    by_cases hz : n = 0 ∨ m = 0
    · simp [processPart, hne, hsp, hn, hm, hz, isErrE]
    · have hgt : n > m := by tauto
      simp [processPart, hne, hsp, hn, hm, hz, hgt, isErrE]
  · intro acc part hsp hz
    have hne : (trimChars part).isEmpty = false := by
      rcases he : trimChars part with _ | ⟨c, cs⟩
      · rw [he] at hz; simp [parseUsize] at hz
      · rfl
    simp [processPart, hne, hsp, hz, isErrE]
  · intro s part hmem hall hnone herr
    have herr2 := processPart_err_all part herr _ hmem []
    simp only [ScanSelection.from_str, hall, hnone]
    rcases hacc : accumulateParts [] (splitChar ',' (trimChars s.data)) with e | idx
    · simp [hacc, isErrE]
    · rw [hacc] at herr2
      exact absurd herr2 (by simp [isErrE])

/-- **C6 witness.** The spec `"1-3,5"` parses to `Indices [1,2,3,5]`, and
position 1 (0-indexed 0) is selected exactly when some item covers it. -/
theorem scan_selection_spec_witness :
    ScanSelection.should_scan (ScanSelection.Indices [1, 2, 3, 5]) 0 = true ↔
      ∃ part ∈ splitChar ',' (trimChars "1-3,5".data),
        specItemCovers part (0 + 1) = true :=
  scan_selection_spec.2.2.1 "1-3,5" [1, 2, 3, 5] rfl 0

/-- **C7 counterexample.** `"/x@v1"` is accepted by `ActionRef::from_str`
(the parser only checks that the name part has at least two `/`-segments),
yet its `owner` is empty — refuting the "owner and repo are non-empty" part
of the claimed invariant. -/
theorem action_ref_empty_owner_accepted :
    ActionRef.from_str "/x@v1" = Except.ok emptyOwnerRef
    ∧ emptyOwnerRef.owner = ""
    ∧ ¬ specRefInvariant emptyOwnerRef :=
  ⟨rfl, rfl, fun h => h.2.1 rfl⟩

/-- **C7 (amended).** Every string accepted by `ActionRef::from_str` yields a
value whose `raw` is the input and contains `'@'`, and whose `ref_type` obeys
the claimed classification: `Sha` iff `git_ref` is exactly forty ASCII-hex
characters, else `Tag` iff stripping an optional leading `v` leaves a string
starting with an ASCII digit, else `Unknown`.  (`owner` and `repo` are the
first two `/`-segments of the name part and may be empty, as the
counterexample shows.) -/
theorem action_ref_parse_invariant :
    ∀ raw ar, ActionRef.from_str raw = Except.ok ar →
      ar.raw = raw
      ∧ '@' ∈ ar.raw.data
      ∧ (ar.ref_type = RefType.Sha ↔ specShaCond ar.git_ref)
      ∧ (ar.ref_type = RefType.Tag ↔
          (¬ specShaCond ar.git_ref ∧ headIsDigit (stripLeadingV ar.git_ref) = true))
      ∧ (ar.ref_type = RefType.Unknown ↔
          (¬ specShaCond ar.git_ref ∧ headIsDigit (stripLeadingV ar.git_ref) = false)) := by
  intro raw ar h
  unfold ActionRef.from_str at h
  split at h
  · cases h
  · rename_i namePart gitRef hsp
    split at h
    · injection h with h2
      subst h2
      refine ⟨rfl, splitOnceChar_mem hsp, ?_, ?_, ?_⟩
      · exact (classify_ref_iffs _).1
      · exact (classify_ref_iffs _).2.1
      · exact (classify_ref_iffs _).2.2
    · cases h

/-- **C7 witness.** The invariant, instantiated at
`"actions/checkout@v4"`. -/
theorem action_ref_parse_invariant_witness :
    checkoutRef.raw = "actions/checkout@v4"
    ∧ '@' ∈ checkoutRef.raw.data
    ∧ (checkoutRef.ref_type = RefType.Sha ↔ specShaCond checkoutRef.git_ref)
    ∧ (checkoutRef.ref_type = RefType.Tag ↔
        (¬ specShaCond checkoutRef.git_ref
          ∧ headIsDigit (stripLeadingV checkoutRef.git_ref) = true))
    ∧ (checkoutRef.ref_type = RefType.Unknown ↔
        (¬ specShaCond checkoutRef.git_ref
          ∧ headIsDigit (stripLeadingV checkoutRef.git_ref) = false)) :=
  action_ref_parse_invariant "actions/checkout@v4" checkoutRef rfl

/-- **C1.** Walker cycle safety: for every root list and every pipeline
behaviour that preserves node identity and depth (true of the concrete
pipeline — stages only enrich the context and install children), any finished
walk processes each distinct `action.raw` at most once (the processed map's
keys are nodup), each raw appears in the emitted `AuditNode` tree at most
once, and every edge of the tree attaches a child to exactly the first parent
that enqueued it (the globally first `(raw, parent)` frontier push for that
raw, in parent-processing then listed-child order, as recorded by the push
log). -/
theorem walker_cycle_safety (f : AuditContext → AuditContext)
    (hb : ChildExpansionBehaviour f) (maxDepth : Option Nat)
    (roots : List ActionRef) (fuel : Nat) (st : WalkState)
    (h : walkFinal f maxDepth roots fuel = some st) :
    (st.allNodes.map Prod.fst).Nodup
    ∧ (forestRaws (treeOf st)).Nodup
    ∧ ∀ pr cr, (pr, cr) ∈ forestEdges (treeOf st) →
        List.find? (fun q => q.1 = cr) st.pushLog = some (cr, some pr) := by
  obtain ⟨inv, hfr⟩ := walkFinal_inv maxDepth f hb.1 hb.2 roots fuel st h
  refine ⟨inv.nodupKeys, ?_, ?_⟩
  · have hperm := btaux_raws st.allNodes st.rootKeys st.childrenOrder inv.rawEq
    have hnd := hperm.nodup_iff.mpr inv.nodupKeys
    exact hnd.of_append_left
  · intro pr cr he
    have hco2 := btaux_edges st.allNodes st.rootKeys st.childrenOrder inv.rawEq pr cr he
    exact (inv.coEdge pr cr hco2).1

/-- **C1 witness.** The cycle-safety conclusions on the concrete cyclic,
diamond-shaped graph `A → [B, C]`, `B → [C, A]`, `C → [A]` with the
duplicated root list `[A, A]`: the walk finishes within fuel 5 and its
output satisfies all three conclusions. -/
theorem walker_cycle_safety_witness :
    (walkFinal testPipeline none testRoots 5).isSome = true
    ∧ (walkFinal testPipeline none testRoots 5).elim True (fun st =>
        (st.allNodes.map Prod.fst).Nodup
        ∧ (forestRaws (treeOf st)).Nodup
        ∧ ∀ pr cr, (pr, cr) ∈ forestEdges (treeOf st) →
            List.find? (fun q => q.1 = cr) st.pushLog = some (cr, some pr)) := by
  constructor
  · rfl
  · cases hw : walkFinal testPipeline none testRoots 5 with
    | none => trivial
    | some st =>
      exact walker_cycle_safety testPipeline ⟨fun ctx => rfl, fun ctx => rfl⟩
        none testRoots 5 st hw

/-- **C2.** Walker depth bound: for every root list and identity/depth
preserving pipeline behaviour, (i) with `max_depth = some k` a finished walk
stores no node of depth `> k` and the emitted tree nests no entry deeper
than `k`; (ii) with `max_depth = some 0` the output tree is exactly the
distinct input roots in input order (its raws are the first-occurrence
dedup of the root raws) with every node's children empty — children
discovered at depth 0 are discarded before enqueue; (iii) with
`max_depth = some 0` one loop iteration of fuel suffices for the walk to
finish. -/
theorem walker_depth_bound (f : AuditContext → AuditContext)
    (hb : ChildExpansionBehaviour f) (roots : List ActionRef) (fuel : Nat) :
    (∀ (k : Nat) (st : WalkState), walkFinal f (some k) roots fuel = some st →
        (∀ p ∈ st.allNodes, p.2.depth ≤ k)
        ∧ ∀ e j, (e, j) ∈ forestFlat 0 (treeOf st) → j ≤ k)
    ∧ (∀ st : WalkState, walkFinal f (some 0) roots fuel = some st →
        forestRaws (treeOf st) = firstDedup (roots.map (fun a => a.raw))
        ∧ ∀ n ∈ treeOf st, AuditNode.children n = [])
    ∧ (1 ≤ fuel → (walkFinal f (some 0) roots fuel).isSome = true) := by
  refine ⟨?_, ?_, ?_⟩
  · intro k st h
    obtain ⟨inv, hfr⟩ := walkFinal_inv (some k) f hb.1 hb.2 roots fuel st h
    have hdb := (inv.depthBound k rfl).2
    refine ⟨hdb, ?_⟩
    intro e j hm
    have hQroot : ∀ key ∈ st.rootKeys,
        ∀ ctx, (key, ctx) ∈ st.allNodes → ctx.depth = 0 :=
      fun key hk => (inv.rootDepth key hk).2
    have hQstep : ∀ key j2 c,
        (∀ ctx, (key, ctx) ∈ st.allNodes → ctx.depth = j2) →
        c ∈ lookupCO st.childrenOrder key →
        ∀ ctx, (c, ctx) ∈ st.allNodes → ctx.depth = j2 + 1 := by
      intro key j2 c hQ hc ctx hctx
      obtain ⟨hfind, hpkmem, hcmem, hdepth2⟩ := inv.coEdge key c hc
      obtain ⟨p, hp, hpk⟩ := List.mem_map.mp hpkmem
      have hpmem : (key, p.2) ∈ st.allNodes := by
        rw [← hpk]; exact hp
      have hdp : p.2.depth = j2 := hQ p.2 hpmem
      have hstep2 := hdepth2 p.2 ctx hpmem hctx
      omega
    have hflat := btaux_flat st.allNodes st.rootKeys st.childrenOrder st.allNodes
      (fun key j2 => ∀ ctx, (key, ctx) ∈ st.allNodes → ctx.depth = j2) 0
      (fun p hp => hp) hQroot hQstep e j hm
    obtain ⟨key, ctx, hmem, hect, hQ⟩ := hflat
    have hdj : ctx.depth = j := hQ ctx hmem
    have hle : ctx.depth ≤ k := hdb (key, ctx) hmem
    omega
  · intro st h
    exact walkFinal_zero_tree f hb.1 roots fuel st h
  · intro hf
    cases fuel with
    | zero => omega
    | succ n =>
      rw [walkFinal, walkLoop]
      split
      · rfl
      · obtain ⟨hfr, hAll, hRoot, hCO⟩ := walkStep_zero f roots
        rw [walkLoop_empty f (some 0) n _ hfr]
        rfl

/-- **C2 witness.** The depth bound at `max_depth = some 0` on the concrete
cyclic graph with duplicated roots `[A, A]`: the walk finishes, and its tree
is exactly the deduplicated roots with empty children. -/
theorem walker_depth_bound_witness :
    (walkFinal testPipeline (some 0) testRoots 3).isSome = true
    ∧ (walkFinal testPipeline (some 0) testRoots 3).elim True (fun st =>
        forestRaws (treeOf st) = firstDedup (testRoots.map (fun a => a.raw))
        ∧ ∀ n ∈ treeOf st, AuditNode.children n = []) := by
  constructor
  · exact (walker_depth_bound testPipeline ⟨fun ctx => rfl, fun ctx => rfl⟩
      testRoots 3).2.2 (by decide)
  · cases hw : walkFinal testPipeline (some 0) testRoots 3 with
    | none => trivial
    | some st =>
      exact (walker_depth_bound testPipeline ⟨fun ctx => rfl, fun ctx => rfl⟩
        testRoots 3).2.1 st hw

end Ghss
